import Mathlib

/-!
Verification development for the bounded web crawler core of the repository:
robots.txt gate (`scraper/robots.py`, `scraper/scraping/robots.py`), rate limiter
(`LinkCollector._wait_for_next_request`), URL normalization
(`LinkCollector._normalize_link` on top of `urllib.parse`), and the bounded
crawl pipeline (`LinkCollector.collect_all_links`, `WebScraper.scrape`,
`WebScraper.scrape_page`).

Python strings are modelled as `List Char` (a `str` is a sequence of code
points).  The parts of CPython's `urllib.parse` the code calls (`urlparse`,
`urlunparse`) are embedded below; validation-only code paths of `urlsplit`
that can only raise (`Invalid IPv6 URL`, `_checknetloc`) are omitted, since the
repository never triggers them and they produce no value.
-/

namespace Scraper

/-- Python `str` as a list of code points. -/
abbrev Str := List Char

/-! ### Generic string helpers (Python slicing / `find` / `rfind` idioms) -/

/-- Split at the first occurrence of `sep`: Python `s.split(sep, 1)` /
`i = s.find(sep); s[:i], s[i+1:]`.  Returns the part before `sep` and,
when `sep` occurs, the part after it. -/
def splitOnFirst (sep : Char) : Str → Str × Option Str
  | [] => ([], none)
  | c :: rest =>
    if c = sep then ([], some rest)
    else
      let r := splitOnFirst sep rest
      (c :: r.1, r.2)

/-- Split at the last occurrence of `sep` (Python `s.rfind(sep)`):
`some (a, b)` means `s = a ++ sep :: b` with `sep ∉ b`. -/
def splitOnLast (sep : Char) : Str → Option (Str × Str)
  | [] => none
  | c :: rest =>
    match splitOnLast sep rest with
    | some (a, b) => some (c :: a, b)
    | none => if c = sep then some ([], rest) else none

/-- Python `s.split(sep)` (split on every occurrence). -/
def splitOnAll (sep : Char) : Str → List Str
  | [] => [[]]
  | c :: rest =>
    if c = sep then [] :: splitOnAll sep rest
    else
      match splitOnAll sep rest with
      | [] => [[c]]
      | a :: as => (c :: a) :: as

/-- Python `s.strip()`: drop whitespace from both ends. -/
def strip (l : Str) : Str :=
  ((l.dropWhile Char.isWhitespace).reverse.dropWhile Char.isWhitespace).reverse

/-- Python `s.splitlines()` for the line endings robots.txt files use
(`\n`, `\r\n`, `\r`); a trailing line break opens no extra line. -/
def splitlinesAux : Str → Str → List Str
  | [], acc => [acc.reverse]
  | '\r' :: '\n' :: rest, acc =>
    acc.reverse :: (if rest = [] then [] else splitlinesAux rest [])
  | '\r' :: rest, acc =>
    acc.reverse :: (if rest = [] then [] else splitlinesAux rest [])
  | '\n' :: rest, acc =>
    acc.reverse :: (if rest = [] then [] else splitlinesAux rest [])
  | c :: rest, acc => splitlinesAux rest (c :: acc)

/-- Python `s.splitlines()` (empty string gives no lines). -/
def splitlines (l : Str) : List Str :=
  match l with
  | [] => []
  | _ => splitlinesAux l []

/-! ### CPython `urllib.parse` model -/

/-- `urllib.parse.scheme_chars`: ASCII letters, digits and `+`, `-`, `.`. -/
def isSchemeChar (c : Char) : Bool :=
  c.isAlpha || c.isDigit || c = '+' || c = '-' || c = '.'

/-- The scheme-candidate test of `urlsplit`: `i > 0 and url[0].isascii() and
url[0].isalpha()` together with `url[1:i]` consisting of scheme characters. -/
def validSchemePre : Str → Bool
  | [] => false
  | c :: cs => c.isAlpha && cs.all isSchemeChar

/-- Scheme extraction step of `urlsplit`: on success the scheme is lowercased
and the rest of the URL is returned, otherwise the URL is left whole. -/
def schemeSplit (url : Str) : Str × Str :=
  match splitOnFirst ':' url with
  | (pre, some rest) =>
    if validSchemePre pre then (pre.map Char.toLower, rest) else ([], url)
  | (_, none) => ([], url)

/-- `urllib.parse._splitnetloc` delimiters. -/
def isNetlocDelim (c : Char) : Bool :=
  c = '/' || c = '?' || c = '#'

/-- `urllib.parse._splitnetloc` (with `start` already dropped by the caller). -/
def splitnetloc (l : Str) : Str × Str :=
  (l.takeWhile (fun c => !isNetlocDelim c), l.dropWhile (fun c => !isNetlocDelim c))

/-- The tab/CR/LF characters `urlsplit` removes from the URL up front. -/
def isUnsafeChar (c : Char) : Bool :=
  c = '\t' || c = '\r' || c = '\n'

/-- `url = url.replace(b, "") for b in _UNSAFE_URL_BYTES_TO_REMOVE`. -/
def removeUnsafe (l : Str) : Str :=
  l.filter (fun c => !isUnsafeChar c)

/-- `_WHATWG_C0_CONTROL_OR_SPACE`: the C0 control characters and the space. -/
def isC0OrSpace (c : Char) : Bool :=
  c.toNat ≤ 32

/-- `url = url.lstrip(_WHATWG_C0_CONTROL_OR_SPACE)` at the start of `urlsplit`. -/
def lstripControl (l : Str) : Str :=
  l.dropWhile isC0OrSpace

/-- Result of `urllib.parse.urlparse` (a `ParseResult` 6-tuple). -/
structure UrlParts where
  scheme : Str
  netloc : Str
  path : Str
  params : Str
  query : Str
  fragment : Str
deriving Repr, DecidableEq

/-- `urllib.parse.urlsplit` (CPython 3.11) with `allow_fragments=True`
(params left empty; `urlparse` fills them in). -/
def urlsplit (url0 : Str) : UrlParts :=
  let url1 := removeUnsafe (lstripControl url0)
  let sr := schemeSplit url1
  let nr :=
    if sr.2.take 2 = ['/', '/'] then splitnetloc (sr.2.drop 2) else ([], sr.2)
  let fr :=
    match splitOnFirst '#' nr.2 with
    | (a, some b) => (a, b)
    | (a, none) => (a, ([] : Str))
  let qr :=
    match splitOnFirst '?' fr.1 with
    | (a, some b) => (a, b)
    | (a, none) => (a, ([] : Str))
  ⟨sr.1, nr.1, qr.1, [], qr.2, fr.2⟩

/-- `urllib.parse.uses_params` (CPython 3.11). -/
def usesParams : List Str :=
  ["", "ftp", "hdl", "prospero", "http", "imap", "https", "shttp", "rtsp",
   "rtsps", "rtspu", "sip", "sips", "mms", "sftp", "tel"].map String.data

/-- `urllib.parse.uses_netloc` (CPython 3.11). -/
def usesNetloc : List Str :=
  ["", "ftp", "http", "gopher", "nntp", "telnet", "imap", "wais", "file",
   "mms", "https", "shttp", "snews", "prospero", "rtsp", "rtsps", "rtspu",
   "rsync", "svn", "svn+ssh", "sftp", "nfs", "git", "git+ssh", "ws",
   "wss"].map String.data

/-- `urllib.parse._splitparams`; only called when `';' ∈ url`, so the
not-found fall-through of the no-slash branch returns the input unchanged. -/
def splitparams (url : Str) : Str × Str :=
  match splitOnLast '/' url with
  | some (before, lastSeg) =>
    match splitOnFirst ';' lastSeg with
    | (seg1, some rest) => (before ++ '/' :: seg1, rest)
    | (_, none) => (url, [])
  | none =>
    match splitOnFirst ';' url with
    | (a, some b) => (a, b)
    | (_, none) => (url, [])

/-- `urllib.parse.urlparse`. -/
def urlparse (url : Str) : UrlParts :=
  let s := urlsplit url
  if s.scheme ∈ usesParams ∧ ';' ∈ s.path then
    let pr := splitparams s.path
    { s with path := pr.1, params := pr.2 }
  else s

/-- `urllib.parse.urlunsplit` (CPython 3.11: the `//` part is re-added when
there is a netloc, or when the scheme is a `uses_netloc` scheme and the path
does not already begin with `//`). -/
def urlunsplit (scheme netloc path query fragment : Str) : Str :=
  let url1 :=
    if netloc ≠ [] ∨ (scheme ≠ [] ∧ scheme ∈ usesNetloc ∧ path.take 2 ≠ ['/', '/']) then
      '/' :: '/' :: (netloc ++ (if path ≠ [] ∧ path.take 1 ≠ ['/'] then '/' :: path else path))
    else path
  let url2 := if scheme ≠ [] then scheme ++ ':' :: url1 else url1
  let url3 := if query ≠ [] then url2 ++ '?' :: query else url2
  if fragment ≠ [] then url3 ++ '#' :: fragment else url3

/-- The `url1` intermediate of `urlunsplit` (the path with the `//` part
re-added when required), named so the round-trip lemmas can refer to it. -/
def unsplitUrl1 (scheme netloc path : Str) : Str :=
  if netloc ≠ [] ∨ (scheme ≠ [] ∧ scheme ∈ usesNetloc ∧ path.take 2 ≠ ['/', '/']) then
    '/' :: '/' :: (netloc ++ (if path ≠ [] ∧ path.take 1 ≠ ['/'] then '/' :: path else path))
  else path

/-- `urllib.parse.urlunparse`. -/
def urlunparse (p : UrlParts) : Str :=
  let pp := if p.params ≠ [] then p.path ++ ';' :: p.params else p.path
  urlunsplit p.scheme p.netloc pp p.query p.fragment

/-- `LinkCollector._normalize_link`: parse, clear fragment and query,
unparse. -/
def normalizeLink (url : Str) : Str :=
  let p := urlparse url
  urlunparse { p with fragment := [], query := [] }

/-- `RobotsTxtChecker._create_robots_url` (scraper/robots.py): the scheme is
hardcoded to `http`. -/
def createRobotsUrl (baseUrl : Str) : Str :=
  "http://".data ++ (urlparse baseUrl).netloc ++ "/robots.txt".data

/-- The robots URL built by `RobotsTxtChecker.fetch` of
scraper/scraping/robots.py: `base_url.rstrip('/') + "/robots.txt"`. -/
def scrapingRobotsUrl (baseUrl : Str) : Str :=
  (baseUrl.reverse.dropWhile (fun c => c = '/')).reverse ++ "/robots.txt".data

/-- `utils.is_valid_url`: the URL must parse to a nonempty scheme and netloc. -/
def isValidUrl (url : Str) : Bool :=
  decide ((urlparse url).scheme ≠ []) && decide ((urlparse url).netloc ≠ [])

/-! ### Robots gate (`scraper/robots.py`) -/

/-- `RobotsTxtChecker.rules`: a Python dict from user-agent string to its list
of disallow prefixes, modelled as an insertion-ordered association list with
unique keys. -/
abbrev Rules := List (Str × List Str)

/-- Python `rules.get(key, [])`. -/
def rulesGet (rules : Rules) (key : Str) : List Str :=
  match rules.find? (fun e => decide (e.1 = key)) with
  | some e => e.2
  | none => []

/-- Python `rules[key] = []`: overwrite in place when the key exists,
otherwise append (dicts keep the original insertion position). -/
def rulesSet (rules : Rules) (key : Str) : Rules :=
  if rules.any (fun e => decide (e.1 = key)) then
    rules.map (fun e => if e.1 = key then (key, ([] : List Str)) else e)
  else rules ++ [(key, [])]

/-- Python `rules[key].append(v)` for a key known to be present. -/
def rulesAppendPath (rules : Rules) (key : Str) (v : Str) : Rules :=
  rules.map (fun e => if e.1 = key then (e.1, e.2 ++ [v]) else e)

/-- The `User-agent:` line marker. -/
def uaMarker : Str := "User-agent:".data

/-- The `Disallow:` line marker. -/
def disallowMarker : Str := "Disallow:".data

/-- Python `line.split(":")[1]` (the callers guarantee a colon is present). -/
def colonField (line : Str) : Str :=
  (splitOnAll ':' line).getD 1 []

/-- One line of `RobotsTxtChecker._parse`: state is the rules built so far
plus the active user-agent group (`None` before the first `User-agent:`). -/
def parseLine (st : Rules × Option Str) (rawLine : Str) : Rules × Option Str :=
  let line := strip rawLine
  if uaMarker.isPrefixOf line then
    let ua := strip (colonField line)
    (rulesSet st.1 ua, some ua)
  else if disallowMarker.isPrefixOf line then
    match st.2 with
    | some ua => (rulesAppendPath st.1 ua (strip (colonField line)), st.2)
    | none => st
  else st

/-- `RobotsTxtChecker._parse`, starting from the checker's current rules. -/
def robotsParse (rules : Rules) (content : Str) : Rules :=
  ((splitlines content).foldl parseLine (rules, none)).1

/-- The default user agent `"*"`. -/
def starUA : Str := "*".data

/-- The disallow-scan loop of `RobotsTxtChecker.is_allowed`: `False` as soon
as the path starts with a recorded prefix, else `True`. -/
def isAllowedAux (path : Str) : List Str → Bool
  | [] => true
  | dp :: rest => if dp.isPrefixOf path then false else isAllowedAux path rest

/-- `RobotsTxtChecker.is_allowed` (scraper/robots.py): only the group of the
exact requested user agent is consulted, via `rules.get(user_agent, [])`. -/
def robotsIsAllowed (rules : Rules) (path : Str) (userAgent : Str) : Bool :=
  isAllowedAux path (rulesGet rules userAgent)

/-- Modelled from the spec: `is_allowed` as §4.1 describes it — the exact
user-agent group first, falling back to the `*` group when there is no exact
group, default allow when no group matches.  Reference point for comparing
the code's behaviour against the specified one. -/
def isAllowedSpecRule (rules : Rules) (path : Str) (userAgent : Str) : Bool :=
  match rules.find? (fun e => decide (e.1 = userAgent)) with
  | some e => isAllowedAux path e.2
  | none =>
    match rules.find? (fun e => decide (e.1 = starUA)) with
    | some e => isAllowedAux path e.2
    | none => true

/-- Python `s.lower()` (the inputs here are ASCII). -/
def lowerStr (l : Str) : Str := l.map Char.toLower

/-- `RobotsTxtChecker._is_path_allowed` (scraper/scraping/robots.py): every
group whose name is `*` or is a (case-insensitive) substring of the requested
user agent is consulted. -/
def isPathAllowedVariant (userAgent path : Str) (directives : Rules) : Bool :=
  directives.all (fun e =>
    if e.1 = starUA ∨ (lowerStr e.1) <:+: (lowerStr userAgent) then
      isAllowedAux path e.2
    else true)

/-- The outcome of `requests.get(robots_url)` as seen by
`RobotsTxtChecker.fetch`: either no response object at all (timeout,
connection refused — `e.response` is `None`), or a settled response with its
final status code and body (`requests` follows redirects itself). -/
inductive ReqOutcome where
  | netFail
  | resp (status : Nat) (body : Str)

/-- What `RobotsTxtChecker.fetch` signals: `raise ConnectionError(...)` for an
HTTP error status other than 404, and the `AttributeError` from
`e.response.status_code` when `e.response` is `None`. -/
inductive FetchSignal where
  | connectionError
  | attributeError
deriving Repr, DecidableEq

/-- `RobotsTxtChecker.fetch` (scraper/robots.py): `raise_for_status` raises
for statuses 400–599; a 404 is logged and swallowed with the rules untouched;
any other raise leaves the rules untouched and signals; a non-error response
is parsed into the rules.  (The `st.write` progress calls and the
`requester.close()` in `finally` have no effect on the rules.) -/
def robotsFetch (rules : Rules) (o : ReqOutcome) : Except FetchSignal Unit × Rules :=
  match o with
  | .netFail => (Except.error .attributeError, rules)
  | .resp status body =>
    if 400 ≤ status ∧ status < 600 then
      if status = 404 then (Except.ok (), rules)
      else (Except.error .connectionError, rules)
    else (Except.ok (), robotsParse rules body)

/-! ### Rate limiter (`LinkCollector._wait_for_next_request`) -/

/-- `AppConfig` (scraper/config/config.py): the minimum interval is written
as `60 / 10`, i.e. 60 over the requests-per-minute default. -/
structure AppConfig where
  requests_per_minute : ℚ := 10
  min_interval_between_requests : ℚ := 60 / 10

/-- The sleep `_wait_for_next_request` performs: with `t1` the first
`time.time()` reading, sleep `min_interval - (t1 - last)` when the elapsed
time since `last_request_time` is below the floor, else nothing. -/
def waitSleepTime (minInterval last t1 : ℚ) : ℚ :=
  if t1 - last < minInterval then minInterval - (t1 - last) else 0

/-- `_wait_for_next_request` with its two `time.time()` readings explicit:
`t1` is read on entry, the sleep is computed from it, and `t2` (read after
the sleep) becomes the new `last_request_time`.  Returns (sleep, new last). -/
def waitForNextRequest (minInterval last t1 t2 : ℚ) : ℚ × ℚ :=
  (waitSleepTime minInterval last t1, t2)

/-! ### Bounded crawler (`LinkCollector`, `WebScraper`) -/

/-- `ScraperConfig` (scraper/config.py). -/
structure ScraperConfig where
  max_links : Nat := 10
  page_load_timeout : Nat := 10
  page_load_sleep : Nat := 5
  scraping_depth : Nat := 1
  min_document_length_to_read : Nat := 100

/-- One fetched page at the parser boundary: `links` are the already-joined
absolute anchor targets (`urljoin(url, a["href"])` over BeautifulSoup's
`find_all("a", href=True)`), `text` is what `extract_readable_text` returns
for the page source (both produced by external libraries). -/
structure Page where
  links : List Str
  text : Str

/-- A site as the driver sees it; `none` models a fetch failure (timeout,
navigation error), which the code turns into an empty result. -/
abbrev Site := Str → Option Page

/-- `LinkCollector._is_same_domain_and_path`. -/
def isSameDomainAndPath (baseUrl url : Str) : Bool :=
  decide ((urlparse url).netloc = (urlparse baseUrl).netloc) &&
  (urlparse baseUrl).path.isPrefixOf (urlparse url).path

/-- `LinkCollector._get_links` without the rate-limiter call (timing is
modelled separately): on success, filter to same domain and path, normalize,
deduplicate (`list(set(...))` keeps one copy of each link); on any failure
return no links. -/
def getLinks (site : Site) (baseUrl url : Str) : List Str :=
  match site url with
  | none => []
  | some page =>
    ((page.links.filter (isSameDomainAndPath baseUrl)).map normalizeLink).eraseDups

/-- State of the `collect_all_links` loop: the visited set, the collected
links (in collection order), the frontier of `(url, depth)` pairs, and an
instrumentation trace of every target actually fetched. -/
structure CollectState where
  visited : List Str
  collected : List Str
  frontier : List (Str × Nat)
  fetched : List (Str × Nat)

/-- The inner `for link in new_links` loop body of `collect_all_links`:
append to the frontier and to the collected list exactly when the link is
unvisited and the budget is not yet reached. -/
def collectPush (maxLinks : Nat) (visited : List Str) (depth : Nat)
    (fc : List (Str × Nat) × List Str) (link : Str) : List (Str × Nat) × List Str :=
  if link ∉ visited ∧ fc.2.length < maxLinks then
    (fc.1 ++ [(link, depth + 1)], fc.2 ++ [link])
  else fc

/-- The `while links_to_visit and len(collected_links) < max_links` loop of
`collect_all_links`, with explicit fuel (each iteration pops one frontier
entry; every safety property below holds for every fuel value, in particular
for the terminating run). -/
def collectLoop (cfg : ScraperConfig) (site : Site) (baseUrl : Str) :
    Nat → CollectState → CollectState
  | 0, st => st
  | fuel + 1, st =>
    match st.frontier with
    | [] => st
    | (url, depth) :: rest =>
      if st.collected.length < cfg.max_links then
        if url ∈ st.visited ∨ depth > cfg.scraping_depth then
          collectLoop cfg site baseUrl fuel { st with frontier := rest }
        else
          let visited' := url :: st.visited
          let fc := (getLinks site baseUrl url).foldl
            (collectPush cfg.max_links visited' depth) (rest, st.collected)
          collectLoop cfg site baseUrl fuel
            { visited := visited', collected := fc.2, frontier := fc.1,
              fetched := st.fetched ++ [(url, depth)] }
      else st

/-- `LinkCollector.collect_all_links`: frontier seeded with the base URL at
depth 0, empty visited set and collection. -/
def collectAllLinks (cfg : ScraperConfig) (site : Site) (baseUrl : Str)
    (fuel : Nat) : CollectState :=
  collectLoop cfg site baseUrl fuel ⟨[], [], [(baseUrl, 0)], []⟩

/-- State of `WebScraper` during `_scrape_links`: its own visited set
(separate from the `LinkCollector` one), the collected documents, and an
instrumentation trace of the URLs actually fetched by `scrape_page`. -/
structure ScrapeState where
  wsVisited : List Str
  documents : List Str
  fetched : List Str

/-- `WebScraper.scrape_page`: skip (returning `""`) when out of scope or
already visited; mark visited; skip when robots.txt disallows the parsed
path for the default `*` agent; otherwise fetch and extract (a fetch failure
yields `""`). -/
def scrapePage (rules : Rules) (site : Site) (baseUrl : Str)
    (st : ScrapeState) (url : Str) : ScrapeState × Str :=
  if ¬ isSameDomainAndPath baseUrl url = true ∨ url ∈ st.wsVisited then (st, [])
  else
    let st1 := { st with wsVisited := url :: st.wsVisited }
    if ¬ robotsIsAllowed rules (urlparse url).path starUA = true then (st1, [])
    else
      let st2 := { st1 with fetched := st1.fetched ++ [url] }
      match site url with
      | none => (st2, [])
      | some page => (st2, page.text)

/-- `WebScraper._is_valid_document`: nonempty and longer than the configured
minimum. -/
def isValidDocument (cfg : ScraperConfig) (doc : Str) : Bool :=
  decide (doc ≠ []) && decide (doc.length > cfg.min_document_length_to_read)

/-- `WebScraper._scrape_links` (the thread pool modelled sequentially in
submission order): scrape each collected link, appending the valid
documents. -/
def scrapeLinks (cfg : ScraperConfig) (rules : Rules) (site : Site)
    (baseUrl : Str) (links : List Str) (st : ScrapeState) : ScrapeState :=
  links.foldl (fun st url =>
    let r := scrapePage rules site baseUrl st url
    if isValidDocument cfg r.2 then
      { r.1 with documents := r.1.documents ++ [r.2] }
    else r.1) st

/-- One whole `WebScraper.scrape` session after robots fetching: collect the
links (first phase, fetching pages), then scrape the collected links (second
phase, fetching again with a fresh visited set). -/
def sessionRun (cfg : ScraperConfig) (site : Site) (baseUrl : Str)
    (rules : Rules) (fuel : Nat) : CollectState × ScrapeState :=
  let c := collectAllLinks cfg site baseUrl fuel
  (c, scrapeLinks cfg rules site baseUrl c.collected ⟨[], [], []⟩)

/-- Every URL fetched during a session, in order: the link-collection fetches
followed by the page-scraping fetches. -/
def sessionFetches (cfg : ScraperConfig) (site : Site) (baseUrl : Str)
    (rules : Rules) (fuel : Nat) : List Str :=
  (sessionRun cfg site baseUrl rules fuel).1.fetched.map Prod.fst ++
    (sessionRun cfg site baseUrl rules fuel).2.fetched

/-- `WebScraper.scrape`: `robots_checker.fetch` is wrapped in `safe_run`
(scraper/logging.py is absent from the tree; its sibling
scraper/config/logging.py catches every exception, logs it and returns
`None`), so a failed robots fetch leaves the empty rule set in place and the
crawl proceeds; the surrounding `try/except Exception` absorbs anything else
and the accumulated documents (possibly none) are returned. -/
def webScraperScrape (cfg : ScraperConfig) (site : Site) (baseUrl : Str)
    (ro : ReqOutcome) (fuel : Nat) : List Str :=
  let rules := (robotsFetch [] ro).2
  (sessionRun cfg site baseUrl rules fuel).2.documents

/-- The hard failures of a crawl session as `main.start_scraping` /
`scrape_and_process` surface them. -/
inductive CrawlError where
  | invalidUrl
  | urlNotFound
  | browserLaunch
deriving Repr, DecidableEq

/-- `main.scrape_and_process` around `WebScraper`: validate the seed URL,
check it exists, construct the scraper (launching the browser — the only
step of the crawl itself that can fail hard), then scrape.  `scrape` always
returns a list, so the `documents is None` re-raise is unreachable. -/
def scrapeAndProcess (url : Str) (urlExists browserOk : Bool)
    (cfg : ScraperConfig) (site : Site) (ro : ReqOutcome) (fuel : Nat) :
    Except CrawlError (List Str) :=
  if ¬ isValidUrl url = true then .error .invalidUrl
  else if ¬ urlExists = true then .error .urlNotFound
  else if ¬ browserOk = true then .error .browserLaunch
  else .ok (webScraperScrape cfg site url ro fuel)

/-! ### Concrete inputs used by witnesses and counterexamples -/

/-- A seed URL for a two-page example site. -/
def exSeed : Str := "http://s.com/".data

/-- The one link below the example seed. -/
def exPageA : Str := "http://s.com/a".data

/-- A two-page site: the seed links to page `a`; page `a` has no links and a
long readable text. -/
def exSite : Site := fun u =>
  if u = exSeed then some ⟨[exPageA], "short".data⟩
  else if u = exPageA then some ⟨[], List.replicate 150 'a'⟩
  else none

/-- The default scraper configuration. -/
def exCfg : ScraperConfig := {}

/-- The default configuration with a budget of one link. -/
def exCfgOne : ScraperConfig := { max_links := 1 }

/-! ### Predicates used to state the `urlparse`/`urlunparse` round trip -/

/-- Re-attach the params component to a path, as `urlunparse` does. -/
def joinParams (path params : Str) : Str :=
  if params ≠ [] then path ++ ';' :: params else path

/-- No prefix of the string before a first colon qualifies as a scheme, so a
re-parse finds no scheme in it. -/
def NoSchemeLike (l : Str) : Prop :=
  ∀ pre rest, splitOnFirst ':' l = (pre, some rest) → validSchemePre pre = false

/-- The shape facts every `urlparse` image satisfies; exactly what is needed
for a re-parse of the `urlunparse` output to make sense. -/
structure WfParts (p : UrlParts) : Prop where
  scheme_valid : p.scheme = [] ∨ validSchemePre p.scheme = true
  scheme_lower : ∀ c ∈ p.scheme, Char.toLower c = c
  netloc_delim : ∀ c ∈ p.netloc, isNetlocDelim c = false
  netloc_safe : ∀ c ∈ p.netloc, isUnsafeChar c = false
  path_hash : '#' ∉ p.path
  path_quest : '?' ∉ p.path
  path_safe : ∀ c ∈ p.path, isUnsafeChar c = false
  params_hash : '#' ∉ p.params
  params_quest : '?' ∉ p.params
  params_safe : ∀ c ∈ p.params, isUnsafeChar c = false
  params_slash : '/' ∉ p.params
  params_scheme : p.params ≠ [] → p.scheme ∈ usesParams
  params_none : p.params = [] →
    p.scheme ∉ usesParams ∨ ';' ∉ p.path ∨
      ∃ a b, splitOnLast '/' p.path = some (a, b) ∧ ';' ∉ b
  params_some : p.params ≠ [] →
    ('/' ∉ p.path ∧ ';' ∉ p.path) ∨
      ∃ a b, splitOnLast '/' p.path = some (a, b) ∧ ';' ∉ b
  netloc_path : p.netloc ≠ [] → p.path = [] ∨ p.path.take 1 = ['/']
  netloc_params : p.netloc ≠ [] → p.params ≠ [] → p.path.take 1 = ['/']
  empty_noscheme : p.scheme = [] → p.netloc = [] →
    NoSchemeLike (joinParams p.path p.params)
  empty_head : p.scheme = [] → p.netloc = [] →
    ∀ c t, p.path = c :: t → isC0OrSpace c = false

/-! ## Character-level lemmas -/

theorem char_toNat_inj {a b : Char} (h : a.toNat = b.toNat) : a = b := by
  apply Char.ext
  exact UInt32.toNat.inj h

theorem toNat_ofNat_small (n : Nat) (h : n < 55296) : (Char.ofNat n).toNat = n := by
  rw [Char.ofNat, dif_pos (Or.inl (by exact_mod_cast h))]
  simp [Char.ofNatAux, Char.toNat, UInt32.ofNat', UInt32.toNat, BitVec.toNat_ofNatLt]

theorem isUpper_iff {c : Char} : c.isUpper = true ↔ 65 ≤ c.toNat ∧ c.toNat ≤ 90 := by
  simp only [Char.isUpper, Bool.and_eq_true, decide_eq_true_eq, Char.toNat, UInt32.toNat,
    UInt32.le_def, BitVec.le_def]
  norm_num

theorem isLower_iff {c : Char} : c.isLower = true ↔ 97 ≤ c.toNat ∧ c.toNat ≤ 122 := by
  simp only [Char.isLower, Bool.and_eq_true, decide_eq_true_eq, Char.toNat, UInt32.toNat,
    UInt32.le_def, BitVec.le_def]
  norm_num

theorem isDigit_iff {c : Char} : c.isDigit = true ↔ 48 ≤ c.toNat ∧ c.toNat ≤ 57 := by
  simp only [Char.isDigit, Bool.and_eq_true, decide_eq_true_eq, Char.toNat, UInt32.toNat,
    UInt32.le_def, BitVec.le_def]
  norm_num

theorem toLower_of_not_upper {c : Char} (h : ¬(65 ≤ c.toNat ∧ c.toNat ≤ 90)) :
    c.toLower = c := by
  rw [Char.toLower, if_neg h]

theorem toNat_toLower_of_upper {c : Char} (h : 65 ≤ c.toNat ∧ c.toNat ≤ 90) :
    c.toLower.toNat = c.toNat + 32 := by
  rw [Char.toLower, if_pos h, toNat_ofNat_small _ (by omega)]

theorem toLower_toLower (c : Char) : c.toLower.toLower = c.toLower := by
  by_cases h : 65 ≤ c.toNat ∧ c.toNat ≤ 90
  · apply toLower_of_not_upper
    rw [toNat_toLower_of_upper h]
    omega
  · rw [toLower_of_not_upper h, toLower_of_not_upper h]

theorem isAlpha_toLower {c : Char} (h : c.isAlpha = true) : c.toLower.isAlpha = true := by
  rcases Bool.or_eq_true _ _ |>.mp h with hu | hl
  · rw [isUpper_iff] at hu
    have hv := toNat_toLower_of_upper hu
    simp only [Char.isAlpha, Bool.or_eq_true]
    right
    rw [isLower_iff, hv]
    omega
  · rw [isLower_iff] at hl
    rw [toLower_of_not_upper (by omega)]
    exact h

theorem isSchemeChar_toLower {c : Char} (h : isSchemeChar c = true) :
    isSchemeChar c.toLower = true := by
  simp only [isSchemeChar, Bool.or_eq_true, decide_eq_true_eq] at h ⊢
  rcases h with (((ha | hd) | hp) | hm) | hdot
  · exact Or.inl (Or.inl (Or.inl (Or.inl (isAlpha_toLower ha))))
  · rw [isDigit_iff] at hd
    rw [toLower_of_not_upper (by omega)]
    simp [isDigit_iff]
    omega
  · subst hp
    rw [toLower_of_not_upper (by decide)]
    simp
  · subst hm
    rw [toLower_of_not_upper (by decide)]
    simp
  · subst hdot
    rw [toLower_of_not_upper (by decide)]
    simp

theorem isAlpha_toNat_range {c : Char} (h : c.isAlpha = true) :
    (65 ≤ c.toNat ∧ c.toNat ≤ 90) ∨ (97 ≤ c.toNat ∧ c.toNat ≤ 122) := by
  rcases Bool.or_eq_true _ _ |>.mp h with hu | hl
  · exact Or.inl (isUpper_iff.mp hu)
  · exact Or.inr (isLower_iff.mp hl)

theorem isSchemeChar_facts {c : Char} (h : isSchemeChar c = true) :
    c ≠ ':' ∧ isUnsafeChar c = false ∧ isC0OrSpace c = false ∧
      isNetlocDelim c = false ∧ c ≠ '#' ∧ c ≠ '?' ∧ c ≠ ';' := by
  have hn : 43 ≤ c.toNat ∧ c.toNat ≤ 122 ∧ c.toNat ≠ 47 ∧ c.toNat ≠ 58 ∧
      c.toNat ≠ 59 ∧ c.toNat ≠ 63 ∧ c.toNat ≠ 35 := by
    simp only [isSchemeChar, Bool.or_eq_true, decide_eq_true_eq] at h
    rcases h with (((ha | hd) | hp) | hm) | hdot
    · rcases isAlpha_toNat_range ha with ⟨h1, h2⟩ | ⟨h1, h2⟩ <;> omega
    · rw [isDigit_iff] at hd
      omega
    · subst hp
      refine ⟨by decide, by decide, by decide, by decide, by decide, by decide, by decide⟩
    · subst hm
      refine ⟨by decide, by decide, by decide, by decide, by decide, by decide, by decide⟩
    · subst hdot
      refine ⟨by decide, by decide, by decide, by decide, by decide, by decide, by decide⟩
  obtain ⟨h1, h2, h3, h4, h5, h6, h7⟩ := hn
  refine ⟨?_, ?_, ?_, ?_, ?_, ?_, ?_⟩
  · intro he
    subst he
    simp at h4
  · simp only [isUnsafeChar, Bool.or_eq_false_iff, decide_eq_false_iff_not]
    refine ⟨⟨?_, ?_⟩, ?_⟩ <;> intro he <;> subst he <;> simp_all
  · simp only [isC0OrSpace, decide_eq_false_iff_not]
    omega
  · simp only [isNetlocDelim, Bool.or_eq_false_iff, decide_eq_false_iff_not]
    refine ⟨⟨?_, ?_⟩, ?_⟩ <;> intro he <;> subst he <;> simp_all
  · intro he
    subst he
    simp at h7
  · intro he
    subst he
    simp at h6
  · intro he
    subst he
    simp at h5

/-! ## Rate limiter: claim C7 -/

/-- C7: with floor = 60 / requests_per_minute, a call to the rate limiter's
wait sleeps exactly (floor − elapsed) when the elapsed time since the
recorded last-request timestamp is below the floor; the timestamp is always
updated to the post-sleep current time; and with a monotone clock no two
consecutive fetches start less than the floor apart. -/
theorem c7_rate_limiter (minInterval last t1 t2 : ℚ) :
    (t1 - last < minInterval →
      (waitForNextRequest minInterval last t1 t2).1 = minInterval - (t1 - last)) ∧
    (waitForNextRequest minInterval last t1 t2).2 = t2 ∧
    ({} : AppConfig).min_interval_between_requests
      = 60 / ({} : AppConfig).requests_per_minute ∧
    (last ≤ t1 → t1 + (waitForNextRequest minInterval last t1 t2).1 ≤ t2 →
      minInterval ≤ t2 - last) := by
  refine ⟨?_, rfl, rfl, ?_⟩
  · intro h
    simp [waitForNextRequest, waitSleepTime, if_pos h]
  · intro h1 h2
    simp only [waitForNextRequest, waitSleepTime] at h2
    by_cases h : t1 - last < minInterval
    · rw [if_pos h] at h2
      linarith
    · rw [if_neg h] at h2
      push_neg at h
      linarith

/-- Witness for C7 at floor 6, last-request time 0, clock readings 2 and 6. -/
theorem c7_rate_limiter_witness :
    (waitForNextRequest 6 0 2 6).1 = 6 - (2 - 0) ∧ (6 : ℚ) ≤ 6 - 0 := by
  constructor
  · exact (c7_rate_limiter 6 0 2 6).1 (by norm_num)
  · exact (c7_rate_limiter 6 0 2 6).2.2.2 (by norm_num)
      (by norm_num [waitForNextRequest, waitSleepTime])

/-! ## Robots gate: claims C5, C4, C10 -/

/-- C5: a 404 from the robots.txt request is success with the rules left as
they are (from the initial empty rules this allows every path for every user
agent); any other HTTP error status (`raise_for_status` raises for 400–599)
signals an error with the rules unchanged, and a network-level failure
(no response object) signals an error with the rules unchanged. -/
theorem c5_robots_fetch (status : Nat) (body : Str) (rules : Rules) :
    (robotsFetch rules (.resp 404 body) = (Except.ok (), rules)) ∧
    (∀ path ua, robotsIsAllowed [] path ua = true) ∧
    (400 ≤ status → status < 600 → status ≠ 404 →
      robotsFetch rules (.resp status body) = (Except.error .connectionError, rules)) ∧
    (robotsFetch rules .netFail = (Except.error .attributeError, rules)) := by
  refine ⟨?_, ?_, ?_, rfl⟩
  · simp [robotsFetch]
  · intro path ua
    simp [robotsIsAllowed, rulesGet, List.find?, isAllowedAux]
  · intro h1 h2 h3
    simp only [robotsFetch, if_pos (And.intro h1 h2), if_neg h3]

/-- Witness for C5 at status 503. -/
theorem c5_robots_fetch_witness :
    robotsFetch [] (.resp 503 []) = (Except.error .connectionError, []) :=
  (c5_robots_fetch 503 [] []).2.2.1 (by norm_num) (by norm_num) (by norm_num)

theorem isAllowedAux_eq_false_iff (path : Str) (dps : List Str) :
    isAllowedAux path dps = false ↔ ∃ dp ∈ dps, dp.isPrefixOf path = true := by
  induction dps with
  | nil => simp [isAllowedAux]
  | cons dp rest ih =>
    by_cases h : dp.isPrefixOf path = true
    · simp only [isAllowedAux, if_pos h, List.mem_cons]
      exact iff_of_true trivial ⟨dp, Or.inl rfl, h⟩
    · simp only [isAllowedAux, if_neg h, ih, List.mem_cons]
      constructor
      · rintro ⟨d, hd, hp⟩
        exact ⟨d, Or.inr hd, hp⟩
      · rintro ⟨d, hd | hd, hp⟩
        · exact absurd (hd ▸ hp) h
        · exact ⟨d, hd, hp⟩

/-- C4 counterexample: parsing `User-agent: * / Disallow: /` and asking about
path `/x` for user agent `Bot`, the code's `is_allowed` consults only the
(absent) exact `Bot` group and answers `True`, while the specified behaviour
(fall back to the `*` group) answers `False`. -/
theorem c4_counterexample :
    robotsIsAllowed (robotsParse [] "User-agent: *\nDisallow: /".data)
        "/x".data "Bot".data = true ∧
    isAllowedSpecRule (robotsParse [] "User-agent: *\nDisallow: /".data)
        "/x".data "Bot".data = false ∧
    rulesGet (robotsParse [] "User-agent: *\nDisallow: /".data) starUA
        = ["/".data] := by
  refine ⟨by decide, by decide, by decide⟩

/-- C4 amended: `is_allowed` consults only the group of the exact requested
user agent (`rules.get(user_agent, [])`), with no fallback to `*`: it returns
`False` exactly when the path starts with some disallow prefix of that group,
and returns `True` whenever there is no exact group — even when a `*` group
exists.  (In the scraping/robots.py variant, the `*` group is instead always
consulted, in addition to any group whose name is a case-insensitive
substring of the requested agent.) -/
theorem c4_exact_group_only (rules : Rules) (path ua : Str) :
    (robotsIsAllowed rules path ua = false ↔
      ∃ dp ∈ rulesGet rules ua, dp.isPrefixOf path = true) ∧
    (rules.find? (fun e => decide (e.1 = ua)) = none →
      robotsIsAllowed rules path ua = true) ∧
    (∀ dps rest, isPathAllowedVariant ua path ((starUA, dps) :: rest)
      = (isAllowedAux path dps && isPathAllowedVariant ua path rest)) := by
  refine ⟨isAllowedAux_eq_false_iff path _, ?_, ?_⟩
  · intro h
    simp [robotsIsAllowed, rulesGet, h, isAllowedAux]
  · intro dps rest
    simp [isPathAllowedVariant]

/-- Witness for C4 amended: the `*`-only rule set blocks nothing for `Bot`. -/
theorem c4_exact_group_only_witness :
    robotsIsAllowed [(starUA, ["/".data])] "/x".data "Bot".data = true :=
  (c4_exact_group_only [(starUA, ["/".data])] "/x".data "Bot".data).2.1 (by decide)

theorem splitlinesAux_cons_other (c : Char) (rest acc : Str)
    (h1 : c ≠ '\r') (h2 : c ≠ '\n') :
    splitlinesAux (c :: rest) acc = splitlinesAux rest (c :: acc) := by
  rw [splitlinesAux.eq_def]
  split
  · simp_all
  · simp_all
  · simp_all
  · simp_all
  · simp_all

theorem splitlinesAux_cons_nl (rest acc : Str) :
    splitlinesAux ('\n' :: rest) acc
      = acc.reverse :: (if rest = [] then [] else splitlinesAux rest []) := rfl

theorem splitlinesAux_last (l : Str) (h : ∀ c ∈ l, c ≠ '\n' ∧ c ≠ '\r') :
    ∀ acc, splitlinesAux l acc = [acc.reverse ++ l] := by
  induction l with
  | nil =>
    intro acc
    simp [splitlinesAux]
  | cons c rest ih =>
    intro acc
    obtain ⟨h1, h2⟩ := h c (List.mem_cons_self _ _)
    rw [splitlinesAux_cons_other c rest acc h2 h1,
      ih (fun d hd => h d (List.mem_cons_of_mem _ hd))]
    simp

theorem splitlinesAux_chain (l₁ l₂ : Str)
    (h : ∀ c ∈ l₁, c ≠ '\n' ∧ c ≠ '\r') (h₂ : l₂ ≠ []) :
    ∀ acc, splitlinesAux (l₁ ++ '\n' :: l₂) acc
      = (acc.reverse ++ l₁) :: splitlinesAux l₂ [] := by
  induction l₁ with
  | nil =>
    intro acc
    rw [List.nil_append, splitlinesAux_cons_nl, if_neg h₂]
    simp
  | cons c rest ih =>
    intro acc
    obtain ⟨h1, h2⟩ := h c (List.mem_cons_self _ _)
    rw [List.cons_append, splitlinesAux_cons_other c _ acc h2 h1,
      ih (fun d hd => h d (List.mem_cons_of_mem _ hd))]
    simp

theorem splitlines_ne_nil (l : Str) (h : l ≠ []) : splitlines l = splitlinesAux l [] := by
  cases l with
  | nil => exact absurd rfl h
  | cons c rest => rfl

theorem dropWhile_cons_false {p : Char → Bool} {c : Char} (l : Str) (h : p c = false) :
    (c :: l).dropWhile p = c :: l := by
  simp [List.dropWhile, h]

theorem strip_head_tail {c : Char} (t ua : Str) (hc : c.isWhitespace = false)
    (hu : ua ≠ []) (hw : ∀ d ∈ ua, d.isWhitespace = false) :
    strip ((c :: t) ++ ua) = (c :: t) ++ ua := by
  unfold strip
  rw [List.cons_append, dropWhile_cons_false _ hc, ← List.cons_append]
  have hrev : ua.reverse ≠ [] := by
    simpa using hu
  obtain ⟨d, s, hds⟩ := List.exists_cons_of_ne_nil hrev
  have hd : d ∈ ua := by
    rw [← List.mem_reverse, hds]
    exact List.mem_cons_self _ _
  have hrw : ((c :: t) ++ ua).reverse = d :: (s ++ (c :: t).reverse) := by
    rw [List.reverse_append, hds]
    rfl
  rw [hrw, dropWhile_cons_false _ (hw d hd), ← hrw, List.reverse_reverse]

theorem strip_space_cons (ua : Str) (hu : ua ≠ []) (hw : ∀ d ∈ ua, d.isWhitespace = false) :
    strip (' ' :: ua) = ua := by
  unfold strip
  have h1 : (' ' :: ua).dropWhile Char.isWhitespace = ua.dropWhile Char.isWhitespace := by
    simp [List.dropWhile]
  obtain ⟨c, t, rfl⟩ := List.exists_cons_of_ne_nil hu
  rw [h1, dropWhile_cons_false _ (hw c (List.mem_cons_self _ _))]
  have hrev : (c :: t).reverse ≠ [] := by
    simp
  obtain ⟨d, s, hds⟩ := List.exists_cons_of_ne_nil hrev
  have hd : d ∈ c :: t := by
    rw [← List.mem_reverse, hds]
    exact List.mem_cons_self _ _
  rw [hds, dropWhile_cons_false _ (hw d hd), ← hds, List.reverse_reverse]

theorem splitOnAll_no_sep (sep : Char) (l : Str) (h : sep ∉ l) : splitOnAll sep l = [l] := by
  induction l with
  | nil => rfl
  | cons c rest ih =>
    have hcs : ¬ c = sep := by
      rintro rfl
      exact h (List.mem_cons_self _ _)
    simp only [splitOnAll]
    rw [if_neg hcs, ih (fun hm => h (List.mem_cons_of_mem _ hm))]

theorem splitOnAll_append_sep (sep : Char) (a b : Str) (h : sep ∉ a) :
    splitOnAll sep (a ++ sep :: b) = a :: splitOnAll sep b := by
  induction a with
  | nil =>
    rw [List.nil_append]
    simp [splitOnAll]
  | cons c rest ih =>
    have hcs : ¬ c = sep := by
      rintro rfl
      exact h (List.mem_cons_self _ _)
    rw [List.cons_append]
    simp only [splitOnAll]
    rw [if_neg hcs, ih (fun hm => h (List.mem_cons_of_mem _ hm))]

theorem colonField_append (a b : Str) (ha : ':' ∉ a) (hb : ':' ∉ b) :
    colonField (a ++ ':' :: b) = b := by
  unfold colonField
  rw [splitOnAll_append_sep _ _ _ ha, splitOnAll_no_sep _ _ hb]
  rfl

theorem isPrefixOf_append_self (m rest : Str) : m.isPrefixOf (m ++ rest) = true := by
  rw [List.isPrefixOf_iff_prefix]
  exact List.prefix_append m rest

/-- Parsing a two-line robots file `User-agent: <ua>` / `Disallow:` records
the empty string as the sole disallow prefix of that group. -/
theorem robotsParse_empty_disallow (ua : Str) (hu : ua ≠ [])
    (hw : ∀ c ∈ ua, c.isWhitespace = false ∧ c ≠ ':' ∧ c ≠ '\n' ∧ c ≠ '\r') :
    robotsParse [] ("User-agent: ".data ++ ua ++ '\n' :: "Disallow:".data)
      = [(ua, [[]])] := by
  have hne : "User-agent: ".data ++ ua ++ '\n' :: "Disallow:".data ≠ [] := by
    intro hnil
    exact List.cons_ne_nil _ _ (List.append_eq_nil.mp hnil).2
  have hno : ∀ c ∈ "User-agent: ".data ++ ua, c ≠ '\n' ∧ c ≠ '\r' := by
    intro c hc
    rcases List.mem_append.mp hc with hc | hc
    · exact (show ∀ x ∈ "User-agent: ".data, x ≠ '\n' ∧ x ≠ '\r' by decide) c hc
    · exact ⟨(hw c hc).2.2.1, (hw c hc).2.2.2⟩
  have hlines : splitlines ("User-agent: ".data ++ ua ++ '\n' :: "Disallow:".data)
      = ["User-agent: ".data ++ ua, "Disallow:".data] := by
    rw [splitlines_ne_nil _ hne,
      splitlinesAux_chain ("User-agent: ".data ++ ua) "Disallow:".data hno (by decide) [],
      splitlinesAux_last "Disallow:".data (by decide) []]
    rfl
  unfold robotsParse
  rw [hlines]
  have hwonly : ∀ c ∈ ua, c.isWhitespace = false := fun c hc => (hw c hc).1
  have hline1 : parseLine ([], none) ("User-agent: ".data ++ ua)
      = ([(ua, [])], some ua) := by
    unfold parseLine
    have hstrip : strip ("User-agent: ".data ++ ua) = "User-agent: ".data ++ ua := by
      exact strip_head_tail ("ser-agent: ".data) ua (by decide) hu hwonly
    rw [hstrip]
    have hpre : uaMarker.isPrefixOf ("User-agent: ".data ++ ua) = true := by
      have : "User-agent: ".data ++ ua = uaMarker ++ (' ' :: ua) := by
        have : "User-agent: ".data = uaMarker ++ [' '] := by decide
        rw [this, List.append_assoc]
        rfl
      rw [this]
      exact isPrefixOf_append_self _ _
    rw [if_pos hpre]
    have hcolon : colonField ("User-agent: ".data ++ ua) = ' ' :: ua := by
      have : "User-agent: ".data ++ ua = "User-agent".data ++ ':' :: (' ' :: ua) := rfl
      rw [this, colonField_append _ _ (by decide)]
      intro hm
      rcases List.mem_cons.mp hm with hc | hc
      · exact absurd hc (by decide)
      · exact (hw _ hc).2.1 rfl
    rw [hcolon, strip_space_cons ua hu hwonly]
    simp [rulesSet]
  have hline2 : parseLine ([(ua, [])], some ua) "Disallow:".data
      = ([(ua, [[]])], some ua) := by
    unfold parseLine
    have hstrip : strip "Disallow:".data = "Disallow:".data := by decide
    rw [hstrip, if_neg (by decide), if_pos (by decide)]
    have hcolon : colonField "Disallow:".data = [] := by decide
    rw [hcolon]
    have hstrip2 : strip ([] : Str) = [] := rfl
    rw [hstrip2]
    simp [rulesAppendPath]
  simp only [List.foldl, hline1, hline2]

theorem rulesGet_single (ua : Str) (dps : List Str) : rulesGet [(ua, dps)] ua = dps := by
  unfold rulesGet
  simp [List.find?]

theorem isAllowedAux_nil_prefix (path : Str) (rest : List Str) :
    isAllowedAux path ([] :: rest) = false := by
  unfold isAllowedAux
  rw [if_pos (List.isPrefixOf_iff_prefix.mpr List.nil_prefix)]

/-- C10: an empty `Disallow:` value is recorded as the empty-string prefix
for the active group, and since every path starts with the empty string,
`is_allowed` then returns `False` for every path checked against that group
(disallow-all, not allow-all). -/
theorem c10_empty_disallow_blocks_all (rules : Rules) (path ua : Str) :
    ([] ∈ rulesGet rules ua → robotsIsAllowed rules path ua = false) ∧
    (ua ≠ [] → (∀ c ∈ ua, c.isWhitespace = false ∧ c ≠ ':' ∧ c ≠ '\n' ∧ c ≠ '\r') →
      robotsIsAllowed
        (robotsParse [] ("User-agent: ".data ++ ua ++ '\n' :: "Disallow:".data))
        path ua = false) := by
  constructor
  · intro hm
    exact (isAllowedAux_eq_false_iff path _).mpr
      ⟨[], hm, List.isPrefixOf_iff_prefix.mpr List.nil_prefix⟩
  · intro hu hw
    rw [robotsParse_empty_disallow ua hu hw]
    unfold robotsIsAllowed
    rw [rulesGet_single, isAllowedAux_nil_prefix]

/-- Witness for C10 at the group `X` and path `/anything`. -/
theorem c10_empty_disallow_blocks_all_witness :
    robotsIsAllowed
      (robotsParse [] ("User-agent: ".data ++ "X".data ++ '\n' :: "Disallow:".data))
      "/anything".data "X".data = false :=
  (c10_empty_disallow_blocks_all [] "/anything".data "X".data).2 (by decide) (by decide)

/-! ## Crawler loop invariants: claims C3, C1, C2, C8 -/

/-- Preservation principle for the `collect_all_links` loop: any property
preserved by the skip step and by the fetch step holds for every fuel. -/
theorem collectLoop_inv (cfg : ScraperConfig) (site : Site) (baseUrl : Str)
    (P : CollectState → Prop)
    (hskip : ∀ st url depth rest, st.frontier = (url, depth) :: rest → P st →
      P { st with frontier := rest })
    (hfetch : ∀ st url depth rest, st.frontier = (url, depth) :: rest →
      st.collected.length < cfg.max_links → url ∉ st.visited →
      depth ≤ cfg.scraping_depth → P st →
      P { visited := url :: st.visited,
          collected := ((getLinks site baseUrl url).foldl
            (collectPush cfg.max_links (url :: st.visited) depth)
            (rest, st.collected)).2,
          frontier := ((getLinks site baseUrl url).foldl
            (collectPush cfg.max_links (url :: st.visited) depth)
            (rest, st.collected)).1,
          fetched := st.fetched ++ [(url, depth)] }) :
    ∀ fuel st, P st → P (collectLoop cfg site baseUrl fuel st) := by
  intro fuel
  induction fuel with
  | zero => exact fun st h => h
  | succ n ih =>
    intro st hP
    cases hf : st.frontier with
    | nil =>
      simp only [collectLoop, hf]
      exact hP
    | cons hd rest =>
      obtain ⟨url, depth⟩ := hd
      simp only [collectLoop, hf]
      by_cases hb : st.collected.length < cfg.max_links
      · rw [if_pos hb]
        by_cases hs : url ∈ st.visited ∨ depth > cfg.scraping_depth
        · rw [if_pos hs]
          exact ih _ (hskip st url depth rest hf hP)
        · rw [if_neg hs]
          push_neg at hs
          exact ih _ (hfetch st url depth rest hf hb hs.1 (by omega) hP)
      · rw [if_neg hb]
        exact hP

/-- The inner collection fold: the collected list only grows (by appending),
its length stays within the budget, and every frontier entry it produces was
already in the frontier or has its URL in the produced collected list. -/
theorem foldl_collectPush_spec (m : Nat) (v : List Str) (d : Nat) :
    ∀ (links : List Str) (fr : List (Str × Nat)) (col : List Str),
      (col <+: (links.foldl (collectPush m v d) (fr, col)).2) ∧
      (col.length ≤ m → (links.foldl (collectPush m v d) (fr, col)).2.length ≤ m) ∧
      (∀ p ∈ (links.foldl (collectPush m v d) (fr, col)).1,
        p ∈ fr ∨ p.1 ∈ (links.foldl (collectPush m v d) (fr, col)).2) := by
  intro links
  induction links with
  | nil =>
    intro fr col
    exact ⟨List.prefix_refl _, fun h => h, fun p hp => Or.inl hp⟩
  | cons link rest ih =>
    intro fr col
    simp only [List.foldl_cons]
    by_cases hc : link ∉ v ∧ col.length < m
    · have hpush : collectPush m v d (fr, col) link
          = (fr ++ [(link, d + 1)], col ++ [link]) := by
        simp only [collectPush, if_pos hc]
      rw [hpush]
      obtain ⟨ih1, ih2, ih3⟩ := ih (fr ++ [(link, d + 1)]) (col ++ [link])
      refine ⟨(List.prefix_append col [link]).trans ih1, ?_, ?_⟩
      · intro hcl
        exact ih2 (by simpa using hc.2)
      · intro p hp
        rcases ih3 p hp with hin | hin
        · rcases List.mem_append.mp hin with hin | hin
          · exact Or.inl hin
          · right
            have hlink : link ∈ col ++ [link] := List.mem_append_right _ (by simp)
            have : p.1 = link := by
              simp only [List.mem_singleton] at hin
              rw [hin]
            rw [this]
            exact ih1.subset hlink
        · exact Or.inr hin
    · have hpush : collectPush m v d (fr, col) link = (fr, col) := by
        simp only [collectPush, if_neg hc]
      rw [hpush]
      exact ih fr col

/-- C3: no crawl target whose depth exceeds the configured maximum depth is
ever fetched by `collect_all_links`: a frontier entry popped with a larger
depth is skipped without fetching, for every site, configuration and fuel. -/
theorem c3_depth_respected (cfg : ScraperConfig) (site : Site) (baseUrl : Str)
    (fuel : Nat) :
    ∀ p ∈ (collectAllLinks cfg site baseUrl fuel).fetched,
      p.2 ≤ cfg.scraping_depth := by
  have h := collectLoop_inv cfg site baseUrl
    (fun st => ∀ p ∈ st.fetched, p.2 ≤ cfg.scraping_depth)
    (fun st url depth rest hf hP => hP)
    (fun st url depth rest hf hb hv hd hP => by
      intro p hp
      rcases List.mem_append.mp hp with hp | hp
      · exact hP p hp
      · simp only [List.mem_singleton] at hp
        rw [hp]
        exact hd)
    fuel ⟨[], [], [(baseUrl, 0)], []⟩ (by intro p hp; simp at hp)
  exact h

/-- Witness for C3: the seed of the example site is fetched at depth 0. -/
theorem c3_depth_respected_witness :
    (exSeed, 0) ∈ (collectAllLinks exCfg exSite exSeed 20).fetched ∧
      (0 : Nat) ≤ exCfg.scraping_depth :=
  ⟨by decide, c3_depth_respected exCfg exSite exSeed 20 (exSeed, 0) (by decide)⟩

/-- The visited set of the collection loop only grows. -/
theorem collect_fetched_nodup (cfg : ScraperConfig) (site : Site) (baseUrl : Str)
    (fuel : Nat) :
    ((collectAllLinks cfg site baseUrl fuel).fetched.map Prod.fst).Nodup := by
  have h := collectLoop_inv cfg site baseUrl
    (fun st => (st.fetched.map Prod.fst).Nodup ∧ ∀ p ∈ st.fetched, p.1 ∈ st.visited)
    (fun st url depth rest hf hP => hP)
    (fun st url depth rest hf hb hv hd hP => by
      obtain ⟨hnd, hvis⟩ := hP
      constructor
      · rw [List.map_append]
        apply List.Nodup.append hnd (by simp)
        intro u hu hu'
        simp only [List.map_cons, List.map_nil, List.mem_singleton] at hu'
        obtain ⟨p, hp, hp1⟩ := List.mem_map.mp hu
        apply hv
        have hpv := hvis p hp
        rw [hp1, hu'] at hpv
        exact hpv
      · intro p hp
        rcases List.mem_append.mp hp with hp | hp
        · exact List.mem_cons_of_mem _ (hvis p hp)
        · simp only [List.mem_singleton] at hp
          rw [hp]
          exact List.mem_cons_self _ _)
    fuel ⟨[], [], [(baseUrl, 0)], []⟩ (by constructor <;> simp)
  exact h.1

/-- `scrape_page` preserves the no-refetch discipline of the second phase:
the fetch trace stays duplicate-free and is always inside the visited set. -/
theorem scrapePage_nodup_inv (rules : Rules) (site : Site) (baseUrl : Str)
    (st : ScrapeState) (url : Str)
    (h : st.fetched.Nodup ∧ ∀ u ∈ st.fetched, u ∈ st.wsVisited) :
    (scrapePage rules site baseUrl st url).1.fetched.Nodup ∧
      ∀ u ∈ (scrapePage rules site baseUrl st url).1.fetched,
        u ∈ (scrapePage rules site baseUrl st url).1.wsVisited := by
  obtain ⟨hnd, hvis⟩ := h
  unfold scrapePage
  by_cases h1 : ¬ isSameDomainAndPath baseUrl url = true ∨ url ∈ st.wsVisited
  · rw [if_pos h1]
    exact ⟨hnd, hvis⟩
  · rw [if_neg h1]
    push_neg at h1
    have hnotv : url ∉ st.wsVisited := h1.2
    have hnotf : url ∉ st.fetched := fun hm => hnotv (hvis url hm)
    by_cases h2 : ¬ robotsIsAllowed rules (urlparse url).path starUA = true
    · rw [if_pos h2]
      exact ⟨hnd, fun u hu => List.mem_cons_of_mem _ (hvis u hu)⟩
    · rw [if_neg h2]
      have hkey : (st.fetched ++ [url]).Nodup ∧
          ∀ u ∈ st.fetched ++ [url], u ∈ url :: st.wsVisited := by
        constructor
        · apply List.Nodup.append hnd (by simp)
          intro u hu hu'
          simp only [List.mem_singleton] at hu'
          exact hnotf (hu' ▸ hu)
        · intro u hu
          rcases List.mem_append.mp hu with hu | hu
          · exact List.mem_cons_of_mem _ (hvis u hu)
          · simp only [List.mem_singleton] at hu
            rw [hu]
            exact List.mem_cons_self _ _
      cases hsite : site url with
      | none => exact hkey
      | some page => exact hkey

/-- The second-phase fold keeps the no-refetch discipline. -/
theorem scrapeLinks_nodup_inv (cfg : ScraperConfig) (rules : Rules) (site : Site)
    (baseUrl : Str) :
    ∀ (links : List Str) (st : ScrapeState),
      (st.fetched.Nodup ∧ ∀ u ∈ st.fetched, u ∈ st.wsVisited) →
      ((scrapeLinks cfg rules site baseUrl links st).fetched.Nodup ∧
        ∀ u ∈ (scrapeLinks cfg rules site baseUrl links st).fetched,
          u ∈ (scrapeLinks cfg rules site baseUrl links st).wsVisited) := by
  intro links
  induction links with
  | nil => exact fun st h => h
  | cons url rest ih =>
    intro st h
    have hstep := scrapePage_nodup_inv rules site baseUrl st url h
    simp only [scrapeLinks, List.foldl_cons]
    by_cases hv : isValidDocument cfg (scrapePage rules site baseUrl st url).2 = true
    · rw [if_pos hv]
      exact ih _ ⟨hstep.1, hstep.2⟩
    · rw [if_neg hv]
      exact ih _ hstep

/-- C1 amended: within each phase no URL is fetched twice — the
link-collection loop fetches each URL at most once (visited checked and
marked before fetching), and the page-scraping pass fetches each URL at most
once (its own visited set) — but the two phases keep separate visited sets,
so a URL collected in phase one is fetched again in phase two. -/
theorem c1_fetch_once_per_phase (cfg : ScraperConfig) (site : Site)
    (baseUrl : Str) (rules : Rules) (fuel : Nat) :
    ((collectAllLinks cfg site baseUrl fuel).fetched.map Prod.fst).Nodup ∧
    (sessionRun cfg site baseUrl rules fuel).2.fetched.Nodup := by
  refine ⟨collect_fetched_nodup cfg site baseUrl fuel, ?_⟩
  exact (scrapeLinks_nodup_inv cfg rules site baseUrl _ ⟨[], [], []⟩
    ⟨List.nodup_nil, by intro u hu; simp at hu⟩).1

set_option maxRecDepth 4000 in
/-- C1 counterexample: on the two-page example site the session fetch trace
is `[seed, a, a]` — page `a` is fetched once while collecting links and once
again while scraping, so a URL is fetched twice within one crawl session. -/
theorem c1_counterexample :
    ¬ (sessionFetches exCfg exSite exSeed [] 20).Nodup := by
  decide

/-- The collected list never exceeds the `max_links` budget. -/
theorem collect_collected_le (cfg : ScraperConfig) (site : Site) (baseUrl : Str)
    (fuel : Nat) :
    (collectAllLinks cfg site baseUrl fuel).collected.length ≤ cfg.max_links := by
  exact collectLoop_inv cfg site baseUrl
    (fun st => st.collected.length ≤ cfg.max_links)
    (fun st url depth rest hf hP => hP)
    (fun st url depth rest hf hb hv hd hP =>
      (foldl_collectPush_spec cfg.max_links (url :: st.visited) depth
        (getLinks site baseUrl url) rest st.collected).2.1 hP)
    fuel ⟨[], [], [(baseUrl, 0)], []⟩ (by simp)

/-- Every URL the collection loop fetches is the seed or a collected link. -/
theorem collect_fetched_scope (cfg : ScraperConfig) (site : Site) (baseUrl : Str)
    (fuel : Nat) :
    ∀ p ∈ (collectAllLinks cfg site baseUrl fuel).fetched,
      p.1 = baseUrl ∨ p.1 ∈ (collectAllLinks cfg site baseUrl fuel).collected := by
  have h := collectLoop_inv cfg site baseUrl
    (fun st => (∀ p ∈ st.frontier, p.1 = baseUrl ∨ p.1 ∈ st.collected) ∧
      (∀ p ∈ st.fetched, p.1 = baseUrl ∨ p.1 ∈ st.collected))
    (fun st url depth rest hf hP =>
      ⟨fun p hp => hP.1 p (by rw [hf]; exact List.mem_cons_of_mem _ hp), hP.2⟩)
    (fun st url depth rest hf hb hv hd hP => by
      obtain ⟨hfr, hft⟩ := hP
      have spec := foldl_collectPush_spec cfg.max_links (url :: st.visited) depth
        (getLinks site baseUrl url) rest st.collected
      constructor
      · intro p hp
        rcases spec.2.2 p hp with hin | hin
        · rcases hfr p (by rw [hf]; exact List.mem_cons_of_mem _ hin) with h | h
          · exact Or.inl h
          · exact Or.inr (spec.1.subset h)
        · exact Or.inr hin
      · intro p hp
        rcases List.mem_append.mp hp with hp | hp
        · rcases hft p hp with h | h
          · exact Or.inl h
          · exact Or.inr (spec.1.subset h)
        · simp only [List.mem_singleton] at hp
          subst hp
          rcases hfr (url, depth) (by rw [hf]; exact List.mem_cons_self _ _) with h | h
          · exact Or.inl h
          · exact Or.inr (spec.1.subset h))
    fuel ⟨[], [], [(baseUrl, 0)], []⟩
    (by
      constructor
      · intro p hp
        simp only [List.mem_singleton] at hp
        subst hp
        exact Or.inl rfl
      · intro p hp
        simp at hp)
  exact h.2

/-- `scrape_page` never touches the document list, and appends at most the
requested URL to the fetch trace. -/
theorem scrapePage_cases (rules : Rules) (site : Site) (baseUrl : Str)
    (st : ScrapeState) (url : Str) :
    (scrapePage rules site baseUrl st url).1.documents = st.documents ∧
    ((scrapePage rules site baseUrl st url).1.fetched = st.fetched ∨
      (scrapePage rules site baseUrl st url).1.fetched = st.fetched ++ [url]) := by
  unfold scrapePage
  by_cases h1 : ¬ isSameDomainAndPath baseUrl url = true ∨ url ∈ st.wsVisited
  · rw [if_pos h1]
    exact ⟨rfl, Or.inl rfl⟩
  · rw [if_neg h1]
    by_cases h2 : ¬ robotsIsAllowed rules (urlparse url).path starUA = true
    · rw [if_pos h2]
      exact ⟨rfl, Or.inl rfl⟩
    · rw [if_neg h2]
      cases site url with
      | none => exact ⟨rfl, Or.inr rfl⟩
      | some page => exact ⟨rfl, Or.inr rfl⟩

/-- The scraping pass fetches only URLs from its link list. -/
theorem scrapeLinks_fetched_scope (cfg : ScraperConfig) (rules : Rules)
    (site : Site) (baseUrl : Str) :
    ∀ (links : List Str) (st : ScrapeState),
      ∀ u ∈ (scrapeLinks cfg rules site baseUrl links st).fetched,
        u ∈ st.fetched ∨ u ∈ links := by
  intro links
  induction links with
  | nil => exact fun st u hu => Or.inl hu
  | cons url rest ih =>
    intro st u
    simp only [scrapeLinks, List.foldl_cons]
    have hcase := scrapePage_cases rules site baseUrl st url
    have hmain : u ∈ (scrapePage rules site baseUrl st url).1.fetched →
        u ∈ st.fetched ∨ u ∈ url :: rest := by
      intro h
      rcases hcase.2 with hf | hf
      · rw [hf] at h
        exact Or.inl h
      · rw [hf] at h
        rcases List.mem_append.mp h with h | h
        · exact Or.inl h
        · simp only [List.mem_singleton] at h
          subst h
          exact Or.inr (List.mem_cons_self _ _)
    by_cases hv : isValidDocument cfg (scrapePage rules site baseUrl st url).2 = true
    · rw [if_pos hv]
      intro hu
      rcases ih _ u hu with h | h
      · exact hmain h
      · exact Or.inr (List.mem_cons_of_mem _ h)
    · rw [if_neg hv]
      intro hu
      rcases ih _ u hu with h | h
      · exact hmain h
      · exact Or.inr (List.mem_cons_of_mem _ h)

/-- The scraping pass appends at most one document per link. -/
theorem scrapeLinks_doc_len (cfg : ScraperConfig) (rules : Rules) (site : Site)
    (baseUrl : Str) :
    ∀ (links : List Str) (st : ScrapeState),
      (scrapeLinks cfg rules site baseUrl links st).documents.length
        ≤ st.documents.length + links.length := by
  intro links
  induction links with
  | nil => exact fun st => Nat.le_refl _
  | cons url rest ih =>
    intro st
    simp only [scrapeLinks, List.foldl_cons]
    have hdoc := (scrapePage_cases rules site baseUrl st url).1
    by_cases hv : isValidDocument cfg (scrapePage rules site baseUrl st url).2 = true
    · rw [if_pos hv]
      refine le_trans (ih _) ?_
      simp only [List.length_append, List.length_cons, List.length_nil, hdoc]
      omega
    · rw [if_neg hv]
      refine le_trans (ih _) ?_
      rw [hdoc]
      simp only [List.length_cons]
      omega

/-- C2 amended: over a whole session the crawler fetches at most
`max_links + 1` distinct pages — the seed plus up to `max_links` collected
links (the seed itself is outside the budget check) — and the number of
collected documents never exceeds `max_links`. -/
theorem c2_budget (cfg : ScraperConfig) (site : Site) (baseUrl : Str)
    (rules : Rules) (fuel : Nat) :
    (sessionFetches cfg site baseUrl rules fuel).dedup.length ≤ cfg.max_links + 1 ∧
    (sessionRun cfg site baseUrl rules fuel).2.documents.length ≤ cfg.max_links := by
  have hcol := collect_collected_le cfg site baseUrl fuel
  constructor
  · have hsub : ∀ u ∈ sessionFetches cfg site baseUrl rules fuel,
        u ∈ baseUrl :: (collectAllLinks cfg site baseUrl fuel).collected := by
      intro u hu
      rcases List.mem_append.mp hu with hu | hu
      · obtain ⟨p, hp, hp1⟩ := List.mem_map.mp hu
        rcases collect_fetched_scope cfg site baseUrl fuel p hp with h | h
        · rw [← hp1, h]
          exact List.mem_cons_self _ _
        · rw [← hp1]
          exact List.mem_cons_of_mem _ h
      · rcases scrapeLinks_fetched_scope cfg rules site baseUrl _ _ u hu with h | h
        · simp at h
        · exact List.mem_cons_of_mem _ h
    calc (sessionFetches cfg site baseUrl rules fuel).dedup.length
        = (sessionFetches cfg site baseUrl rules fuel).toFinset.card :=
          (List.card_toFinset _).symm
      _ ≤ (baseUrl :: (collectAllLinks cfg site baseUrl fuel).collected).toFinset.card := by
          apply Finset.card_le_card
          intro u hu
          rw [List.mem_toFinset] at hu ⊢
          exact hsub u hu
      _ ≤ (baseUrl :: (collectAllLinks cfg site baseUrl fuel).collected).length :=
          (baseUrl :: (collectAllLinks cfg site baseUrl fuel).collected).toFinset_card_le
      _ = (collectAllLinks cfg site baseUrl fuel).collected.length + 1 := by
          simp
      _ ≤ cfg.max_links + 1 := by omega
  · have hlen := scrapeLinks_doc_len cfg rules site baseUrl
      (collectAllLinks cfg site baseUrl fuel).collected ⟨[], [], []⟩
    simp only [List.length_nil, Nat.zero_add] at hlen
    exact hlen.trans hcol

set_option maxRecDepth 4000 in
/-- C2 counterexample: with `max_links = 1` the session fetches two distinct
pages (the seed and the one collected link), exceeding the budget of one. -/
theorem c2_counterexample :
    exCfgOne.max_links = 1 ∧
    (sessionFetches exCfgOne exSite exSeed [] 20).dedup.length = 2 := by
  exact ⟨rfl, by decide⟩

/-- When some `*`-group disallow prefix covers the base path, `scrape_page`
returns the empty text for every URL: out-of-scope URLs are skipped, and
in-scope URLs have the base path (hence the disallow prefix) as a path
prefix, so the robots gate rejects them before fetching. -/
theorem scrapePage_blocked (rules : Rules) (site : Site) (baseUrl : Str)
    (st : ScrapeState) (url : Str) (dp : Str)
    (hdp : dp ∈ rulesGet rules starUA)
    (hpre : dp.isPrefixOf (urlparse baseUrl).path = true) :
    (scrapePage rules site baseUrl st url).2 = [] := by
  unfold scrapePage
  by_cases h1 : ¬ isSameDomainAndPath baseUrl url = true ∨ url ∈ st.wsVisited
  · rw [if_pos h1]
  · rw [if_neg h1]
    push_neg at h1
    have hbase : (urlparse baseUrl).path.isPrefixOf (urlparse url).path = true := by
      have hdom := h1.1
      unfold isSameDomainAndPath at hdom
      exact (Bool.and_eq_true _ _ |>.mp hdom).2
    have hdp2 : dp.isPrefixOf (urlparse url).path = true := by
      rw [List.isPrefixOf_iff_prefix] at hpre hbase ⊢
      exact hpre.trans hbase
    have hdis : robotsIsAllowed rules (urlparse url).path starUA = false :=
      (isAllowedAux_eq_false_iff _ _).mpr ⟨dp, hdp, hdp2⟩
    rw [if_pos (by rw [hdis]; simp)]

/-- If every page scrape yields the empty text, the scraping pass collects no
documents. -/
theorem scrapeLinks_doc_unchanged (cfg : ScraperConfig) (rules : Rules)
    (site : Site) (baseUrl : Str)
    (hblock : ∀ st url, (scrapePage rules site baseUrl st url).2 = []) :
    ∀ (links : List Str) (st : ScrapeState),
      (scrapeLinks cfg rules site baseUrl links st).documents = st.documents := by
  intro links
  induction links with
  | nil => exact fun st => rfl
  | cons url rest ih =>
    intro st
    simp only [scrapeLinks, List.foldl_cons]
    have hinvalid : isValidDocument cfg (scrapePage rules site baseUrl st url).2 = false := by
      rw [hblock st url]
      rfl
    rw [hinvalid]
    simp only [Bool.false_eq_true, if_false]
    exact (ih _).trans (scrapePage_cases rules site baseUrl st url).1

/-- With a site where every fetch fails, the collection loop collects no
links at all (`_get_links` turns each failure into an empty link list). -/
theorem collect_all_fail (cfg : ScraperConfig) (baseUrl : Str) (fuel : Nat) :
    (collectAllLinks cfg (fun _ => none) baseUrl fuel).collected = [] := by
  exact collectLoop_inv cfg (fun _ => none) baseUrl
    (fun st => st.collected = [])
    (fun st url depth rest hf hP => hP)
    (fun st url depth rest hf hb hv hd hP => hP)
    fuel ⟨[], [], [(baseUrl, 0)], []⟩ rfl

/-- C8: the crawl call absorbs per-page failures — when robots.txt disallows
the seed path it returns an empty document list, when every fetch attempt
fails it returns an empty document list — and the surrounding pipeline
signals a hard error exactly for invalid input (malformed seed URL, by
`is_valid_url`; nonexistent URL, by the HEAD check) or browser-launch
failure; in every other case it returns the scrape result. -/
theorem c8_failure_surface (cfg : ScraperConfig) (site : Site) (baseUrl url : Str)
    (rules : Rules) (fuel : Nat) (dp : Str) (uex bok : Bool) (ro : ReqOutcome) :
    (dp ∈ rulesGet rules starUA → dp.isPrefixOf (urlparse baseUrl).path = true →
      (sessionRun cfg site baseUrl rules fuel).2.documents = []) ∧
    ((sessionRun cfg (fun _ => none) baseUrl rules fuel).2.documents = []) ∧
    (scrapeAndProcess url uex bok cfg site ro fuel
        = Except.ok (webScraperScrape cfg site url ro fuel)
      ↔ isValidUrl url = true ∧ uex = true ∧ bok = true) := by
  refine ⟨?_, ?_, ?_⟩
  · intro hdp hpre
    exact scrapeLinks_doc_unchanged cfg rules site baseUrl
      (fun st u => scrapePage_blocked rules site baseUrl st u dp hdp hpre) _ _
  · rw [sessionRun, collect_all_fail cfg baseUrl fuel]
    rfl
  · unfold scrapeAndProcess
    by_cases h1 : isValidUrl url = true
    · rw [if_neg (by rw [h1]; simp)]
      by_cases h2 : uex = true
      · rw [if_neg (by rw [h2]; simp)]
        by_cases h3 : bok = true
        · rw [if_neg (by rw [h3]; simp)]
          exact iff_of_true rfl ⟨h1, h2, h3⟩
        · rw [if_pos (by simpa using h3)]
          exact iff_of_false (by simp) (fun hc => h3 hc.2.2)
      · rw [if_pos (by simpa using h2)]
        exact iff_of_false (by simp) (fun hc => h2 hc.2.1)
    · rw [if_pos (by simpa using h1)]
      exact iff_of_false (by simp) (fun hc => h1 hc.1)

set_option maxRecDepth 4000 in
/-- Witness for C8: a `*` rule disallowing `/` covers the example seed path,
and the session then collects no documents. -/
theorem c8_failure_surface_witness :
    (sessionRun exCfg exSite exSeed [(starUA, ["/".data])] 20).2.documents = [] :=
  (c8_failure_surface exCfg exSite exSeed exSeed [(starUA, ["/".data])] 20
    "/".data true true (ReqOutcome.resp 404 [])).1 (by decide) (by decide)

/-! ## String-splitting lemmas for the URL round trip -/

theorem splitOnFirst_not_mem (sep : Char) (l : Str) (h : sep ∉ l) :
    splitOnFirst sep l = (l, none) := by
  induction l with
  | nil => rfl
  | cons c rest ih =>
    have hc : ¬ c = sep := by
      rintro rfl
      exact h (List.mem_cons_self _ _)
    simp only [splitOnFirst]
    rw [if_neg hc, ih (fun hm => h (List.mem_cons_of_mem _ hm))]

theorem splitOnFirst_append (sep : Char) (a b : Str) (h : sep ∉ a) :
    splitOnFirst sep (a ++ sep :: b) = (a, some b) := by
  induction a with
  | nil =>
    simp [splitOnFirst]
  | cons c rest ih =>
    have hc : ¬ c = sep := by
      rintro rfl
      exact h (List.mem_cons_self _ _)
    simp only [List.cons_append, splitOnFirst, List.append_eq]
    rw [if_neg hc, ih (fun hm => h (List.mem_cons_of_mem _ hm))]

theorem splitOnFirst_eq_some (sep : Char) {l a b : Str}
    (h : splitOnFirst sep l = (a, some b)) : l = a ++ sep :: b ∧ sep ∉ a := by
  induction l generalizing a with
  | nil => simp [splitOnFirst] at h
  | cons c rest ih =>
    simp only [splitOnFirst] at h
    by_cases hc : c = sep
    · rw [if_pos hc] at h
      obtain ⟨h1, h2⟩ := Prod.mk.injEq .. ▸ h
      injection h
      subst hc
      simp_all
    · rw [if_neg hc] at h
      injection h with h1 h2
      cases ha : splitOnFirst sep rest with
      | mk a' o' =>
        rw [ha] at h1 h2
        simp only at h1 h2
        obtain ⟨hl, hnm⟩ := ih (a := a') (by rw [ha, h2])
        constructor
        · rw [← h1, hl]
          rfl
        · rw [← h1]
          intro hm
          rcases List.mem_cons.mp hm with hm | hm
          · exact hc hm.symm
          · exact hnm hm

theorem splitOnFirst_eq_none (sep : Char) {l a : Str}
    (h : splitOnFirst sep l = (a, none)) : l = a ∧ sep ∉ l := by
  induction l generalizing a with
  | nil =>
    simp only [splitOnFirst] at h
    injection h with h1 h2
    simp [← h1]
  | cons c rest ih =>
    simp only [splitOnFirst] at h
    by_cases hc : c = sep
    · rw [if_pos hc] at h
      injection h with h1 h2
      cases h2
    · rw [if_neg hc] at h
      injection h with h1 h2
      cases ha : splitOnFirst sep rest with
      | mk a' o' =>
        rw [ha] at h1 h2
        simp only at h1 h2
        obtain ⟨hl, hnm⟩ := ih (a := a') (by rw [ha, h2])
        constructor
        · rw [← h1, hl]
        · intro hm
          rcases List.mem_cons.mp hm with hm | hm
          · exact hc hm.symm
          · exact hnm hm

theorem splitOnLast_not_mem (sep : Char) (l : Str) (h : sep ∉ l) :
    splitOnLast sep l = none := by
  induction l with
  | nil => rfl
  | cons c rest ih =>
    have hc : ¬ c = sep := by
      rintro rfl
      exact h (List.mem_cons_self _ _)
    simp only [splitOnLast]
    rw [ih (fun hm => h (List.mem_cons_of_mem _ hm))]
    simp [hc]

theorem splitOnLast_append (sep : Char) (a b : Str) (h : sep ∉ b) :
    splitOnLast sep (a ++ sep :: b) = some (a, b) := by
  induction a with
  | nil =>
    simp only [List.nil_append, splitOnLast]
    rw [splitOnLast_not_mem sep b h]
    simp
  | cons c rest ih =>
    simp only [List.cons_append, splitOnLast, List.append_eq]
    rw [ih]

theorem splitOnLast_eq_none (sep : Char) {l : Str} (h : splitOnLast sep l = none) :
    sep ∉ l := by
  induction l with
  | nil => simp
  | cons c rest ih =>
    simp only [splitOnLast] at h
    cases ha : splitOnLast sep rest with
    | some p =>
      rw [ha] at h
      cases h
    | none =>
      rw [ha] at h
      by_cases hc : c = sep
      · rw [if_pos hc] at h
        cases h
      · rw [if_neg hc] at h
        intro hm
        rcases List.mem_cons.mp hm with hm | hm
        · exact hc hm.symm
        · exact ih ha hm

theorem splitOnLast_eq_some (sep : Char) {l : Str} {a b : Str}
    (h : splitOnLast sep l = some (a, b)) : l = a ++ sep :: b ∧ sep ∉ b := by
  induction l generalizing a with
  | nil => simp [splitOnLast] at h
  | cons c rest ih =>
    simp only [splitOnLast] at h
    cases ha : splitOnLast sep rest with
    | some p =>
      obtain ⟨a', b'⟩ := p
      rw [ha] at h
      simp only [Option.some.injEq, Prod.mk.injEq] at h
      obtain ⟨h1, h2⟩ := h
      obtain ⟨hl, hnm⟩ := ih (a := a') (by rw [ha, h2])
      constructor
      · rw [← h1, List.cons_append, ← hl]
      · exact hnm
    | none =>
      rw [ha] at h
      by_cases hc : c = sep
      · rw [if_pos hc] at h
        simp only [Option.some.injEq, Prod.mk.injEq] at h
        obtain ⟨h1, h2⟩ := h
        subst hc
        rw [← h1, ← h2]
        exact ⟨rfl, splitOnLast_eq_none _ ha⟩
      · rw [if_neg hc] at h
        cases h

theorem takeWhile_append_all {p : Char → Bool} (a b : Str)
    (h : ∀ c ∈ a, p c = true) :
    (a ++ b).takeWhile p = a ++ b.takeWhile p := by
  induction a with
  | nil => rfl
  | cons c rest ih =>
    simp [List.cons_append, List.takeWhile_cons, h c (List.mem_cons_self _ _),
      ih (fun d hd => h d (List.mem_cons_of_mem _ hd))]

theorem dropWhile_append_all {p : Char → Bool} (a b : Str)
    (h : ∀ c ∈ a, p c = true) :
    (a ++ b).dropWhile p = b.dropWhile p := by
  induction a with
  | nil => rfl
  | cons c rest ih =>
    simp [List.cons_append, List.dropWhile_cons, h c (List.mem_cons_self _ _),
      ih (fun d hd => h d (List.mem_cons_of_mem _ hd))]

theorem takeWhile_nil_of_head {p : Char → Bool} {l : Str}
    (h : l = [] ∨ ∃ c t, l = c :: t ∧ p c = false) : l.takeWhile p = [] := by
  rcases h with rfl | ⟨c, t, rfl, hc⟩
  · rfl
  · simp [List.takeWhile_cons, hc]

theorem dropWhile_self_of_head {p : Char → Bool} {l : Str}
    (h : l = [] ∨ ∃ c t, l = c :: t ∧ p c = false) : l.dropWhile p = l := by
  rcases h with rfl | ⟨c, t, rfl, hc⟩
  · rfl
  · simp [List.dropWhile_cons, hc]

theorem dropWhile_head_false {p : Char → Bool} :
    ∀ (l : Str) {c : Char} {t : Str}, l.dropWhile p = c :: t → p c = false := by
  intro l
  induction l with
  | nil => intro c t h; cases h
  | cons d rest ih =>
    intro c t h
    rw [List.dropWhile_cons] at h
    by_cases hd : p d = true
    · rw [if_pos hd] at h
      exact ih h
    · rw [if_neg hd] at h
      injection h with h1 h2
      rw [← h1]
      exact Bool.not_eq_true _ |>.mp hd

/-- `_splitnetloc` on a clean netloc followed by a delimiter-headed rest. -/
theorem splitnetloc_append (n rest : Str)
    (hn : ∀ c ∈ n, isNetlocDelim c = false)
    (hr : rest = [] ∨ ∃ c t, rest = c :: t ∧ isNetlocDelim c = true) :
    splitnetloc (n ++ rest) = (n, rest) := by
  unfold splitnetloc
  have hall : ∀ c ∈ n, (!isNetlocDelim c) = true := by
    intro c hc
    rw [hn c hc]
    rfl
  have hhead : rest = [] ∨ ∃ c t, rest = c :: t ∧ (!isNetlocDelim c) = false := by
    rcases hr with rfl | ⟨c, t, rfl, hc⟩
    · exact Or.inl rfl
    · exact Or.inr ⟨c, t, rfl, by rw [hc]; rfl⟩
  rw [takeWhile_append_all n rest hall, dropWhile_append_all n rest hall,
    takeWhile_nil_of_head hhead, dropWhile_self_of_head hhead, List.append_nil]

/-! ## Scheme-split lemmas -/

theorem validSchemePre_facts {s : Str} (hv : validSchemePre s = true) :
    s ≠ [] ∧ ∀ c ∈ s, isSchemeChar c = true := by
  cases s with
  | nil => cases hv
  | cons c cs =>
    simp only [validSchemePre, Bool.and_eq_true, List.all_eq_true] at hv
    refine ⟨List.cons_ne_nil _ _, ?_⟩
    intro d hd
    rcases List.mem_cons.mp hd with rfl | hd
    · simp [isSchemeChar, hv.1]
    · exact hv.2 d hd

theorem validSchemePre_not_colon {s : Str} (hv : validSchemePre s = true) :
    ':' ∉ s := by
  intro hm
  exact (isSchemeChar_facts ((validSchemePre_facts hv).2 ':' hm)).1 rfl

theorem map_toLower_id {s : Str} (hlow : ∀ c ∈ s, Char.toLower c = c) :
    s.map Char.toLower = s := by
  induction s with
  | nil => rfl
  | cons c cs ih =>
    simp [hlow c (List.mem_cons_self _ _),
      ih (fun d hd => hlow d (List.mem_cons_of_mem _ hd))]

theorem validSchemePre_map_toLower {s : Str} (hv : validSchemePre s = true) :
    validSchemePre (s.map Char.toLower) = true ∧
      ∀ c ∈ s.map Char.toLower, Char.toLower c = c ∧ isSchemeChar c = true := by
  cases s with
  | nil => cases hv
  | cons c cs =>
    simp only [validSchemePre, Bool.and_eq_true, List.all_eq_true] at hv
    obtain ⟨hca, hcs⟩ := hv
    constructor
    · simp only [List.map_cons, validSchemePre, Bool.and_eq_true, List.all_eq_true]
      refine ⟨isAlpha_toLower hca, ?_⟩
      intro d hd
      obtain ⟨e, he, rfl⟩ := List.mem_map.mp hd
      exact isSchemeChar_toLower (hcs e he)
    · intro d hd
      obtain ⟨e, he, rfl⟩ := List.mem_map.mp hd
      have hes : isSchemeChar e = true := by
        rcases List.mem_cons.mp he with rfl | he'
        · simp [isSchemeChar, hca]
        · exact hcs e he'
      exact ⟨toLower_toLower e, isSchemeChar_toLower hes⟩

theorem schemeSplit_valid_append {s : Str} (body : Str)
    (hv : validSchemePre s = true) :
    schemeSplit (s ++ ':' :: body) = (s.map Char.toLower, body) := by
  unfold schemeSplit
  rw [splitOnFirst_append ':' s body (validSchemePre_not_colon hv)]
  simp [hv]

theorem schemeSplit_lowered {s : Str} (body : Str) (hv : validSchemePre s = true)
    (hlow : ∀ c ∈ s, Char.toLower c = c) :
    schemeSplit (s ++ ':' :: body) = (s, body) := by
  rw [schemeSplit_valid_append body hv, map_toLower_id hlow]

theorem schemeSplit_none {l : Str} (h : NoSchemeLike l) : schemeSplit l = ([], l) := by
  unfold schemeSplit
  cases hs : splitOnFirst ':' l with
  | mk pre o =>
    cases o with
    | none => rfl
    | some rest =>
      have hv := h pre rest hs
      simp [hv]

theorem noSchemeLike_nil : NoSchemeLike [] := by
  intro pre rest h
  simp [splitOnFirst] at h

theorem noSchemeLike_head {c : Char} (l : Str) (h : c.isAlpha = false) :
    NoSchemeLike (c :: l) := by
  intro pre rest hs
  simp only [splitOnFirst] at hs
  by_cases hc : c = ':'
  · rw [if_pos hc] at hs
    injection hs with h1 h2
    rw [← h1]
    rfl
  · rw [if_neg hc] at hs
    injection hs with h1 h2
    rw [← h1]
    simp [validSchemePre, h]

theorem noSchemeLike_of_prefix {l pp : Str} (h : NoSchemeLike l) (hp : pp <+: l) :
    NoSchemeLike pp := by
  intro pre rest hs
  obtain ⟨hl, hnm⟩ := splitOnFirst_eq_some ':' hs
  obtain ⟨t, ht⟩ := hp
  apply h pre (rest ++ t)
  rw [← ht, hl, List.append_assoc, List.cons_append]
  exact splitOnFirst_append ':' pre (rest ++ t) hnm

theorem removeUnsafe_all {l : Str} (h : ∀ c ∈ l, isUnsafeChar c = false) :
    removeUnsafe l = l := by
  unfold removeUnsafe
  rw [List.filter_eq_self]
  intro a ha
  rw [h a ha]
  rfl

theorem lstripControl_self {l : Str}
    (h : l = [] ∨ ∃ c t, l = c :: t ∧ isC0OrSpace c = false) :
    lstripControl l = l :=
  dropWhile_self_of_head h

theorem unsafe_imp_c0 {c : Char} (h : isUnsafeChar c = true) :
    isC0OrSpace c = true := by
  simp only [isUnsafeChar, Bool.or_eq_true, decide_eq_true_eq] at h
  rcases h with (rfl | rfl) | rfl <;> decide

theorem alpha_not_c0 {c : Char} (h : c.isAlpha = true) : isC0OrSpace c = false := by
  rcases isAlpha_toNat_range h with ⟨h1, _⟩ | ⟨h1, _⟩ <;>
    · simp only [isC0OrSpace, decide_eq_false_iff_not]
      omega

/-! ## Params-split lemmas -/

theorem splitparams_eq_slash_semi {x before lastSeg seg1 rest : Str}
    (hl : splitOnLast '/' x = some (before, lastSeg))
    (hf : splitOnFirst ';' lastSeg = (seg1, some rest)) :
    splitparams x = (before ++ '/' :: seg1, rest) := by
  simp [splitparams, hl, hf]

theorem splitparams_eq_slash_nosemi {x before lastSeg seg1 : Str}
    (hl : splitOnLast '/' x = some (before, lastSeg))
    (hf : splitOnFirst ';' lastSeg = (seg1, none)) :
    splitparams x = (x, []) := by
  simp [splitparams, hl, hf]

theorem splitparams_eq_noslash_semi {x a b : Str}
    (hl : splitOnLast '/' x = none)
    (hf : splitOnFirst ';' x = (a, some b)) :
    splitparams x = (a, b) := by
  simp [splitparams, hl, hf]

theorem splitparams_eq_noslash_nosemi {x a : Str}
    (hl : splitOnLast '/' x = none)
    (hf : splitOnFirst ';' x = (a, none)) :
    splitparams x = (x, []) := by
  simp [splitparams, hl, hf]

theorem splitparams_slash_nosemi {p a b : Str}
    (hab : splitOnLast '/' p = some (a, b)) (hb : ';' ∉ b) :
    splitparams p = (p, []) := by
  have hf := splitOnFirst_not_mem ';' b hb
  exact splitparams_eq_slash_nosemi hab hf

/-- Reattaching split-off params and splitting again recovers the pair, given
the shape facts `urlparse` guarantees. -/
theorem splitparams_join {p prm : Str} (hslash : '/' ∉ prm)
    (hstruct : ('/' ∉ p ∧ ';' ∉ p) ∨
      ∃ a b, splitOnLast '/' p = some (a, b) ∧ ';' ∉ b) :
    splitparams (p ++ ';' :: prm) = (p, prm) := by
  rcases hstruct with ⟨hps, hpsemi⟩ | ⟨a, b, hab, hb⟩
  · have hl : splitOnLast '/' (p ++ ';' :: prm) = none := by
      apply splitOnLast_not_mem
      intro hm
      rcases List.mem_append.mp hm with hm | hm
      · exact hps hm
      · rcases List.mem_cons.mp hm with hm | hm
        · exact absurd hm (by decide)
        · exact hslash hm
    exact splitparams_eq_noslash_semi hl (splitOnFirst_append ';' p prm hpsemi)
  · obtain ⟨hp, hnb⟩ := splitOnLast_eq_some '/' hab
    have hshape : p ++ ';' :: prm = a ++ '/' :: (b ++ ';' :: prm) := by
      rw [hp, List.append_assoc, List.cons_append]
    have hl : splitOnLast '/' (p ++ ';' :: prm) = some (a, b ++ ';' :: prm) := by
      rw [hshape]
      apply splitOnLast_append
      intro hm
      rcases List.mem_append.mp hm with hm | hm
      · exact hnb hm
      · rcases List.mem_cons.mp hm with hm | hm
        · exact absurd hm (by decide)
        · exact hslash hm
    rw [splitparams_eq_slash_semi hl (splitOnFirst_append ';' b prm hb), hp]

/-- The shape facts `_splitparams` output satisfies. -/
theorem splitparams_spec (p0 : Str) :
    '/' ∉ (splitparams p0).2 ∧
    (splitparams p0).1 <+: p0 ∧
    joinParams (splitparams p0).1 (splitparams p0).2 <+: p0 ∧
    ((splitparams p0).2 ≠ [] →
      (('/' ∉ (splitparams p0).1 ∧ ';' ∉ (splitparams p0).1) ∨
        ∃ a b, splitOnLast '/' (splitparams p0).1 = some (a, b) ∧ ';' ∉ b)) ∧
    ((splitparams p0).2 = [] →
      (';' ∉ (splitparams p0).1 ∨
        ∃ a b, splitOnLast '/' (splitparams p0).1 = some (a, b) ∧ ';' ∉ b)) ∧
    ('/' ∈ p0 → (splitparams p0).1 ≠ []) := by
  cases hl : splitOnLast '/' p0 with
  | some pr =>
    obtain ⟨before, lastSeg⟩ := pr
    obtain ⟨hx, hnb⟩ := splitOnLast_eq_some '/' hl
    cases hf : splitOnFirst ';' lastSeg with
    | mk seg1 o =>
      cases o with
      | some rest =>
        obtain ⟨hseg, hns⟩ := splitOnFirst_eq_some ';' hf
        rw [splitparams_eq_slash_semi hl hf]
        have hrest_sub : ∀ c ∈ rest, c ∈ lastSeg := by
          intro c hc
          rw [hseg]
          exact List.mem_append_right _ (List.mem_cons_of_mem _ hc)
        have hseg1_slash : '/' ∉ seg1 := by
          intro hm
          exact hnb (hseg ▸ List.mem_append_left _ hm)
        refine ⟨?_, ?_, ?_, ?_, ?_, ?_⟩
        · intro hm
          exact hnb (hrest_sub '/' hm)
        · rw [hx, hseg]
          exact ⟨';' :: rest, by simp⟩
        · rw [joinParams]
          by_cases hr : rest = []
          · rw [if_neg (by simp [hr])]
            rw [hx, hseg]
            exact ⟨';' :: rest, by simp⟩
          · rw [if_pos (by simpa using hr)]
            rw [hx, hseg]
            exact ⟨[], by simp⟩
        · intro _
          right
          exact ⟨before, seg1, splitOnLast_append '/' before seg1 hseg1_slash, hns⟩
        · intro _
          right
          exact ⟨before, seg1, splitOnLast_append '/' before seg1 hseg1_slash, hns⟩
        · intro _
          simp
      | none =>
        obtain ⟨hseg, hns⟩ := splitOnFirst_eq_none ';' hf
        rw [splitparams_eq_slash_nosemi hl hf]
        refine ⟨by simp, List.prefix_refl _, ?_, ?_, ?_, ?_⟩
        · rw [joinParams, if_neg (by simp)]
        · intro hc
          exact absurd rfl hc
        · intro _
          right
          exact ⟨before, lastSeg, hl, hns⟩
        · intro _
          rw [hx]
          simp
  | none =>
    have hnoslash := splitOnLast_eq_none '/' hl
    cases hf : splitOnFirst ';' p0 with
    | mk a o =>
      cases o with
      | some b =>
        obtain ⟨hx, hna⟩ := splitOnFirst_eq_some ';' hf
        rw [splitparams_eq_noslash_semi hl hf]
        have ha_slash : '/' ∉ a := by
          intro hm
          exact hnoslash (hx ▸ List.mem_append_left _ hm)
        refine ⟨?_, ?_, ?_, ?_, ?_, ?_⟩
        · intro hm
          exact hnoslash (hx ▸ List.mem_append_right _ (List.mem_cons_of_mem _ hm))
        · rw [hx]
          exact ⟨';' :: b, rfl⟩
        · rw [joinParams]
          by_cases hb : b = []
          · rw [if_neg (by simp [hb])]
            rw [hx]
            exact ⟨';' :: b, rfl⟩
          · rw [if_pos (by simpa using hb)]
            rw [hx]
        · intro _
          exact Or.inl ⟨ha_slash, hna⟩
        · intro _
          exact Or.inl hna
        · intro hm
          exact absurd hm hnoslash
      | none =>
        obtain ⟨hx, hns⟩ := splitOnFirst_eq_none ';' hf
        rw [splitparams_eq_noslash_nosemi hl hf]
        refine ⟨by simp, List.prefix_refl _, ?_, ?_, ?_, ?_⟩
        · rw [joinParams, if_neg (by simp)]
        · intro hc
          exact absurd rfl hc
        · intro _
          exact Or.inl hns
        · intro hm
          exact absurd hm hnoslash

theorem prefix_head_eq {l1 l2 : Str} (h : l1 <+: l2) {c : Char} {t : Str}
    (hl : l1 = c :: t) : ∃ t2, l2 = c :: t2 := by
  obtain ⟨s, hs⟩ := h
  exact ⟨t ++ s, by rw [← hs, hl]; rfl⟩


/-! ## `urlsplit`/`urlparse` output shape -/

theorem take_two_shape {l : Str} {a b : Char} (h : l.take 2 = [a, b]) :
    ∃ t, l = a :: b :: t := by
  cases l with
  | nil => cases h
  | cons c1 r =>
    cases r with
    | nil => cases h
    | cons c2 t =>
      simp only [List.take, List.take_zero] at h
      injection h with h1 h2
      injection h2 with h2 h3
      exact ⟨t, by rw [h1, h2]⟩

theorem splitOnFirst_fst_spec (sep : Char) {l a : Str} {o : Option Str}
    (h : splitOnFirst sep l = (a, o)) : a <+: l ∧ sep ∉ a := by
  cases o with
  | some b =>
    obtain ⟨hl, hs⟩ := splitOnFirst_eq_some sep h
    exact ⟨⟨sep :: b, hl.symm⟩, hs⟩
  | none =>
    obtain ⟨hl, hs⟩ := splitOnFirst_eq_none sep h
    subst hl
    exact ⟨List.prefix_refl _, hs⟩

theorem netlocDelim_cases {c : Char} (h : isNetlocDelim c = true) :
    c = '/' ∨ c = '?' ∨ c = '#' := by
  simp only [isNetlocDelim, Bool.or_eq_true, decide_eq_true_eq] at h
  tauto

theorem takeWhile_nil_head {p : Char → Bool} {l : Str} (h : l.takeWhile p = []) :
    l = [] ∨ ∃ c t, l = c :: t ∧ p c = false := by
  cases l with
  | nil => exact Or.inl rfl
  | cons c t =>
    right
    refine ⟨c, t, rfl, ?_⟩
    by_cases hc : p c = true
    · rw [List.takeWhile_cons, if_pos hc] at h
      cases h
    · exact Bool.not_eq_true _ |>.mp hc

theorem removeUnsafe_safe (l : Str) :
    ∀ c ∈ removeUnsafe l, isUnsafeChar c = false := by
  intro c hc
  have := List.of_mem_filter hc
  simpa using this

/-- The first character surviving the WHATWG strip and the tab/CR/LF removal
is not a C0 control or space. -/
theorem removeUnsafe_lstrip_head (u : Str) :
    ∀ c t, removeUnsafe (lstripControl u) = c :: t → isC0OrSpace c = false := by
  intro c t h
  cases hl : lstripControl u with
  | nil =>
    rw [hl] at h
    cases h
  | cons d t' =>
    have hd : isC0OrSpace d = false := dropWhile_head_false _ hl
    have hdu : (!isUnsafeChar d) = true := by
      by_cases hu : isUnsafeChar d = true
      · rw [unsafe_imp_c0 hu] at hd
        cases hd
      · simp [Bool.not_eq_true _ |>.mp hu]
    rw [hl] at h
    rw [removeUnsafe, List.filter_cons, if_pos hdu] at h
    injection h with h1 _
    rw [← h1]
    exact hd

/-- What `schemeSplit` can return: either no scheme was recognised and the URL
is left whole (and a re-parse will not find one either), or the URL splits at
a colon and the scheme is the lowercased, valid prefix. -/
theorem schemeSplit_out_proj (l : Str) :
    ((schemeSplit l).1 = [] ∧ (schemeSplit l).2 = l ∧ NoSchemeLike l) ∨
    (validSchemePre (schemeSplit l).1 = true ∧
      (∀ c ∈ (schemeSplit l).1, Char.toLower c = c) ∧
      ∃ pre, l = pre ++ ':' :: (schemeSplit l).2) := by
  unfold schemeSplit
  split
  · rename_i pre rest heq
    by_cases hv : validSchemePre pre = true
    · rw [if_pos hv]
      right
      exact ⟨(validSchemePre_map_toLower hv).1,
        fun c hc => ((validSchemePre_map_toLower hv).2 c hc).1,
        pre, (splitOnFirst_eq_some ':' heq).1⟩
    · rw [if_neg hv]
      left
      refine ⟨rfl, rfl, ?_⟩
      intro p' r' hx
      rw [heq] at hx
      injection hx with h1 h2
      rw [← h1]
      exact Bool.not_eq_true _ |>.mp hv
  · rename_i fst heq
    left
    refine ⟨rfl, rfl, ?_⟩
    intro p' r' hx
    rw [heq] at hx
    injection hx with h1 h2
    cases h2

theorem schemeSplit_out {l s r : Str} (h : schemeSplit l = (s, r)) :
    (s = [] ∧ r = l ∧ NoSchemeLike l) ∨
    (validSchemePre s = true ∧ (∀ c ∈ s, Char.toLower c = c) ∧
      ∃ pre, l = pre ++ ':' :: r) := by
  have h1 : (schemeSplit l).1 = s := by rw [h]
  have h2 : (schemeSplit l).2 = r := by rw [h]
  rw [← h1, ← h2]
  exact schemeSplit_out_proj l

/-- The netloc stage of `urlsplit` in both its branches. -/
theorem netloc_branch {u2 n u4 : Str}
    (hnr : (if u2.take 2 = ['/', '/'] then splitnetloc (u2.drop 2)
        else (([] : Str), u2)) = (n, u4)) :
    (∃ u3, u2 = '/' :: '/' :: u3 ∧
        n = u3.takeWhile (fun c => !isNetlocDelim c) ∧
        u4 = u3.dropWhile (fun c => !isNetlocDelim c)) ∨
      (n = [] ∧ u4 = u2) := by
  by_cases h2 : u2.take 2 = ['/', '/']
  · rw [if_pos h2] at hnr
    obtain ⟨u3, hu3⟩ := take_two_shape h2
    subst hu3
    have hd : (('/' :: '/' :: u3 : Str)).drop 2 = u3 := rfl
    rw [hd] at hnr
    unfold splitnetloc at hnr
    injection hnr with ha hb
    exact Or.inl ⟨u3, rfl, ha.symm, hb.symm⟩
  · rw [if_neg h2] at hnr
    injection hnr with ha hb
    exact Or.inr ⟨ha.symm, hb.symm⟩

/-- `urlsplit` written out in terms of the outcomes of its stages. -/
theorem urlsplit_eq_explicit (u : Str) {s u2 n u4 u5 p0 : Str}
    {fo qo : Option Str}
    (hss : schemeSplit (removeUnsafe (lstripControl u)) = (s, u2))
    (hnr : (if u2.take 2 = ['/', '/'] then splitnetloc (u2.drop 2)
        else (([] : Str), u2)) = (n, u4))
    (hf : splitOnFirst '#' u4 = (u5, fo))
    (hq : splitOnFirst '?' u5 = (p0, qo)) :
    urlsplit u = ⟨s, n, p0, [], qo.getD [], fo.getD []⟩ := by
  cases fo with
  | none =>
    cases qo with
    | none => simp only [urlsplit, hss, hnr, hf, hq, Option.getD]
    | some b => simp only [urlsplit, hss, hnr, hf, hq, Option.getD]
  | some a =>
    cases qo with
    | none => simp only [urlsplit, hss, hnr, hf, hq, Option.getD]
    | some b => simp only [urlsplit, hss, hnr, hf, hq, Option.getD]

/-- `urlparse` on top of a known `urlsplit` outcome. -/
theorem urlparse_eq_of_urlsplit {u : Str} {s n p0 q f : Str}
    (h : urlsplit u = ⟨s, n, p0, [], q, f⟩) :
    urlparse u =
      if s ∈ usesParams ∧ ';' ∈ p0 then
        ⟨s, n, (splitparams p0).1, (splitparams p0).2, q, f⟩
      else ⟨s, n, p0, [], q, f⟩ := by
  unfold urlparse
  rw [h]

/-- Every `urlparse` image satisfies the `WfParts` shape facts. -/
theorem wfParts_urlparse (u : Str) : WfParts (urlparse u) := by
  obtain ⟨⟨s, u2⟩, hss⟩ :
      ∃ p, schemeSplit (removeUnsafe (lstripControl u)) = p := ⟨_, rfl⟩
  obtain ⟨⟨n, u4⟩, hnr⟩ :
      ∃ p, (if u2.take 2 = ['/', '/'] then splitnetloc (u2.drop 2)
          else (([] : Str), u2)) = p := ⟨_, rfl⟩
  obtain ⟨⟨u5, fo⟩, hf⟩ : ∃ p, splitOnFirst '#' u4 = p := ⟨_, rfl⟩
  obtain ⟨⟨p0, qo⟩, hq⟩ : ∃ p, splitOnFirst '?' u5 = p := ⟨_, rfl⟩
  have hout := schemeSplit_out hss
  have hbranch := netloc_branch hnr
  obtain ⟨hu5pfx, hu5hash⟩ := splitOnFirst_fst_spec '#' hf
  obtain ⟨hp0pfx, hq0⟩ := splitOnFirst_fst_spec '?' hq
  have hparse := urlparse_eq_of_urlsplit (urlsplit_eq_explicit u hss hnr hf hq)
  have hhash0 : '#' ∉ p0 := fun hm => hu5hash (hp0pfx.subset hm)
  have hu2sub : ∀ c ∈ u2, c ∈ removeUnsafe (lstripControl u) := by
    rcases hout with ⟨_, hr, _⟩ | ⟨_, _, pre, hp⟩
    · intro c hc
      rw [hr] at hc
      exact hc
    · intro c hc
      rw [hp]
      exact List.mem_append_right _ (List.mem_cons_of_mem _ hc)
  have hu4sub : ∀ c ∈ u4, c ∈ u2 := by
    rcases hbranch with ⟨u3, hu3, _, hu4⟩ | ⟨_, hu4⟩
    · intro c hc
      rw [hu4] at hc
      have hc3 : c ∈ u3 := (List.dropWhile_suffix _).sublist.subset hc
      rw [hu3]
      exact List.mem_cons_of_mem _ (List.mem_cons_of_mem _ hc3)
    · intro c hc
      rw [hu4] at hc
      exact hc
  have hp0sub : ∀ c ∈ p0, c ∈ removeUnsafe (lstripControl u) :=
    fun c hc => hu2sub _ (hu4sub _ (hu5pfx.subset (hp0pfx.subset hc)))
  have hp0safe : ∀ c ∈ p0, isUnsafeChar c = false :=
    fun c hc => removeUnsafe_safe _ c (hp0sub c hc)
  have hn_sub : ∀ c ∈ n, c ∈ u2 := by
    rcases hbranch with ⟨u3, hu3, hn, _⟩ | ⟨hn, _⟩
    · intro c hc
      rw [hn] at hc
      have hc3 : c ∈ u3 := (List.takeWhile_prefix _).subset hc
      rw [hu3]
      exact List.mem_cons_of_mem _ (List.mem_cons_of_mem _ hc3)
    · intro c hc
      rw [hn] at hc
      cases hc
  have hn_safe : ∀ c ∈ n, isUnsafeChar c = false :=
    fun c hc => removeUnsafe_safe _ c (hu2sub c (hn_sub c hc))
  have hn_delim : ∀ c ∈ n, isNetlocDelim c = false := by
    rcases hbranch with ⟨u3, hu3, hn, _⟩ | ⟨hn, _⟩
    · intro c hc
      rw [hn] at hc
      have := List.mem_takeWhile_imp hc
      simpa using this
    · intro c hc
      rw [hn] at hc
      cases hc
  have hp0head : n ≠ [] → p0 = [] ∨ ∃ t, p0 = '/' :: t := by
    intro hn0
    rcases hbranch with ⟨u3, hu3, hn, hu4⟩ | ⟨hn, _⟩
    · cases hp0c : p0 with
      | nil => exact Or.inl rfl
      | cons c t =>
        right
        obtain ⟨t5, ht5⟩ := prefix_head_eq hp0pfx hp0c
        obtain ⟨t4, ht4⟩ := prefix_head_eq hu5pfx ht5
        rw [hu4] at ht4
        have hdel : isNetlocDelim c = true := by
          have := dropWhile_head_false _ ht4
          simpa using this
        rcases netlocDelim_cases hdel with rfl | rfl | rfl
        · exact ⟨t, rfl⟩
        · exact absurd (by rw [hp0c]; exact List.mem_cons_self _ _) hq0
        · exact absurd (by rw [hp0c]; exact List.mem_cons_self _ _) hhash0
    · exact absurd hn hn0
  have hempty : s = [] → n = [] →
      NoSchemeLike p0 ∧ (∀ c t, p0 = c :: t → isC0OrSpace c = false) := by
    intro hs0 hn0
    rcases hout with ⟨_, hr, hnsl⟩ | ⟨hv, _, _⟩
    · rcases hbranch with ⟨u3, hu3, hn, hu4⟩ | ⟨_, hu4⟩
      · have htw : u3.takeWhile (fun c => !isNetlocDelim c) = [] := by
          rw [← hn]
          exact hn0
        have hhead := takeWhile_nil_head htw
        have hu4' : u4 = u3 := by
          rw [hu4]
          exact dropWhile_self_of_head hhead
        have hchase : ∀ c t, p0 = c :: t → isNetlocDelim c = true := by
          intro c t hct
          obtain ⟨t5, ht5⟩ := prefix_head_eq hp0pfx hct
          obtain ⟨t4, ht4⟩ := prefix_head_eq hu5pfx ht5
          rw [hu4'] at ht4
          rcases hhead with h3 | ⟨d, t3, h3, hd⟩
          · rw [h3] at ht4
            cases ht4
          · rw [h3] at ht4
            injection ht4 with hcd _
            rw [← hcd]
            simpa using hd
        constructor
        · cases hp0c : p0 with
          | nil => exact noSchemeLike_nil
          | cons c t =>
            rcases netlocDelim_cases (hchase c t hp0c) with rfl | rfl | rfl
            · exact noSchemeLike_head t (by decide)
            · exact absurd (by rw [hp0c]; exact List.mem_cons_self _ _) hq0
            · exact absurd (by rw [hp0c]; exact List.mem_cons_self _ _) hhash0
        · intro c t hct
          rcases netlocDelim_cases (hchase c t hct) with rfl | rfl | rfl <;> decide
      · have hpfx : p0 <+: removeUnsafe (lstripControl u) := by
          rw [← hr, ← hu4]
          exact hp0pfx.trans hu5pfx
        refine ⟨ noSchemeLike_of_prefix hnsl hpfx, ?_⟩
        intro c t hct
        obtain ⟨t1, ht1⟩ := prefix_head_eq hpfx hct
        exact removeUnsafe_lstrip_head u c t1 ht1
    · rw [hs0] at hv
      exact absurd hv (by decide)
  by_cases hc : s ∈ usesParams ∧ ';' ∈ p0
  · rw [if_pos hc] at hparse
    rw [hparse]
    obtain ⟨hsl, hfpfx, hjpfx, hsome, hnone, hslashne⟩ := splitparams_spec p0
    have hfsub : ∀ c ∈ (splitparams p0).1, c ∈ p0 := fun c hcm => hfpfx.subset hcm
    have hprmsub : ∀ c ∈ (splitparams p0).2, c ∈ p0 := by
      intro c hcm
      have hne : (splitparams p0).2 ≠ [] := by
        intro h0
        rw [h0] at hcm
        cases hcm
      have hj := hjpfx
      rw [joinParams, if_pos (by simpa using hne)] at hj
      exact hj.subset (List.mem_append_right _ (List.mem_cons_of_mem _ hcm))
    refine
      { scheme_valid := ?_
        scheme_lower := ?_
        netloc_delim := hn_delim
        netloc_safe := hn_safe
        path_hash := fun hm => hhash0 (hfsub _ hm)
        path_quest := fun hm => hq0 (hfsub _ hm)
        path_safe := fun c hcm => hp0safe c (hfsub c hcm)
        params_hash := fun hm => hhash0 (hprmsub _ hm)
        params_quest := fun hm => hq0 (hprmsub _ hm)
        params_safe := fun c hcm => hp0safe c (hprmsub c hcm)
        params_slash := hsl
        params_scheme := fun _ => hc.1
        params_none := ?_
        params_some := hsome
        netloc_path := ?_
        netloc_params := ?_
        empty_noscheme := ?_
        empty_head := ?_ }
    · rcases hout with ⟨h1, _, _⟩ | ⟨h1, _, _⟩
      · exact Or.inl h1
      · exact Or.inr h1
    · rcases hout with ⟨h1, _, _⟩ | ⟨_, h2, _⟩
      · intro c hcm
        rw [h1] at hcm
        cases hcm
      · exact h2
    · intro hprm0
      rcases hnone hprm0 with h | h
      · exact Or.inr (Or.inl h)
      · exact Or.inr (Or.inr h)
    · intro hn0
      rcases hp0head hn0 with hp00 | ⟨t, hpt⟩
      · rw [hp00]
        exact Or.inl rfl
      · right
        have hne : (splitparams p0).1 ≠ [] := by
          apply hslashne
          rw [hpt]
          exact List.mem_cons_self _ _
        cases hfc : (splitparams p0).1 with
        | nil => exact absurd hfc hne
        | cons c t2 =>
          obtain ⟨t3, ht3⟩ := prefix_head_eq hfpfx hfc
          have hcc := (hpt.symm.trans ht3)
          injection hcc with hc1 _
          subst hc1
          rfl
    · intro hn0 hprm0
      rcases hp0head hn0 with hp00 | ⟨t, hpt⟩
      · rw [hp00] at hprm0
        exact absurd rfl hprm0
      · have hne : (splitparams p0).1 ≠ [] := by
          apply hslashne
          rw [hpt]
          exact List.mem_cons_self _ _
        cases hfc : (splitparams p0).1 with
        | nil => exact absurd hfc hne
        | cons c t2 =>
          obtain ⟨t3, ht3⟩ := prefix_head_eq hfpfx hfc
          have hcc := (hpt.symm.trans ht3)
          injection hcc with hc1 _
          subst hc1
          rfl
    · intro h1 h2
      exact noSchemeLike_of_prefix (hempty h1 h2).1 hjpfx
    · intro h1 h2 c t hct
      obtain ⟨t3, ht3⟩ := prefix_head_eq hfpfx hct
      exact (hempty h1 h2).2 c t3 ht3
  · rw [if_neg hc] at hparse
    rw [hparse]
    refine
      { scheme_valid := ?_
        scheme_lower := ?_
        netloc_delim := hn_delim
        netloc_safe := hn_safe
        path_hash := hhash0
        path_quest := hq0
        path_safe := hp0safe
        params_hash := fun hm => by cases hm
        params_quest := fun hm => by cases hm
        params_safe := fun c hcm => by cases hcm
        params_slash := fun hm => by cases hm
        params_scheme := fun h0 => absurd rfl h0
        params_none := ?_
        params_some := fun h0 => absurd rfl h0
        netloc_path := ?_
        netloc_params := fun _ h0 => absurd rfl h0
        empty_noscheme := ?_
        empty_head := fun h1 h2 c t hct => (hempty h1 h2).2 c t hct }
    · rcases hout with ⟨h1, _, _⟩ | ⟨h1, _, _⟩
      · exact Or.inl h1
      · exact Or.inr h1
    · rcases hout with ⟨h1, _, _⟩ | ⟨_, h2, _⟩
      · intro c hcm
        rw [h1] at hcm
        cases hcm
      · exact h2
    · intro _
      rcases not_and_or.mp hc with h | h
      · exact Or.inl h
      · exact Or.inr (Or.inl h)
    · intro hn0
      rcases hp0head hn0 with h | ⟨t, hpt⟩
      · exact Or.inl h
      · right
        rw [hpt]
        rfl
    · intro h1 h2
      have hns := (hempty h1 h2).1
      have hjp : joinParams p0 [] = p0 := by
        rw [joinParams, if_neg (by simp)]
      rw [hjp]
      exact hns

/-! ## Round-trip lemmas for `normalizeLink` -/

theorem urlunsplit_noqf (s n p : Str) :
    urlunsplit s n p [] [] =
      if s ≠ [] then s ++ ':' :: unsplitUrl1 s n p else unsplitUrl1 s n p := by
  simp only [urlunsplit]
  rw [if_neg (fun hx : ([] : Str) ≠ [] => hx rfl),
    if_neg (fun hx : ([] : Str) ≠ [] => hx rfl)]
  rfl

theorem joinParams_mem {path prm : Str} {ch : Char} (h : ch ∈ joinParams path prm) :
    ch ∈ path ∨ ch = ';' ∨ ch ∈ prm := by
  unfold joinParams at h
  by_cases hp : prm ≠ []
  · rw [if_pos hp] at h
    rcases List.mem_append.mp h with h | h
    · exact Or.inl h
    · rcases List.mem_cons.mp h with h | h
      · exact Or.inr (Or.inl h)
      · exact Or.inr (Or.inr h)
  · rw [if_neg hp] at h
    exact Or.inl h

theorem joinParams_cons (x : Char) (path prm : Str) :
    joinParams (x :: path) prm = x :: joinParams path prm := by
  unfold joinParams
  by_cases hp : prm ≠ []
  · rw [if_pos hp, if_pos hp]
    rfl
  · rw [if_neg hp, if_neg hp]

theorem joinParams_take_two {path prm : Str}
    (h : (joinParams path prm).take 2 = ['/', '/']) : path.take 2 = ['/', '/'] := by
  unfold joinParams at h
  by_cases hp : prm ≠ []
  · rw [if_pos hp] at h
    cases path with
    | nil =>
      have he : ((([] : Str)) ++ ';' :: prm).take 2 = ';' :: prm.take 1 := rfl
      rw [he] at h
      injection h with h1 _
      exact absurd h1 (by decide)
    | cons a t =>
      cases t with
      | nil =>
        have he : ((a :: ([] : Str)) ++ ';' :: prm).take 2 = [a, ';'] := rfl
        rw [he] at h
        injection h with h1 h2
        injection h2 with h2 _
        exact absurd h2 (by decide)
      | cons b t2 =>
        have he : ((a :: b :: t2) ++ ';' :: prm).take 2 = [a, b] := rfl
        rw [he] at h
        exact h
  · rw [if_neg hp] at h
    exact h

theorem unsplitUrl1_mem {s n p : Str} :
    ∀ ch ∈ unsplitUrl1 s n p, ch ∈ n ∨ ch ∈ p ∨ ch = '/' := by
  unfold unsplitUrl1
  intro ch
  by_cases hc : n ≠ [] ∨ (s ≠ [] ∧ s ∈ usesNetloc ∧ p.take 2 ≠ ['/', '/'])
  · rw [if_pos hc]
    intro hm
    rcases List.mem_cons.mp hm with h | hm2
    · exact Or.inr (Or.inr h)
    rcases List.mem_cons.mp hm2 with h | hm3
    · exact Or.inr (Or.inr h)
    rcases List.mem_append.mp hm3 with h | hm4
    · exact Or.inl h
    by_cases hin : p ≠ [] ∧ p.take 1 ≠ ['/']
    · rw [if_pos hin] at hm4
      rcases List.mem_cons.mp hm4 with h | h
      · exact Or.inr (Or.inr h)
      · exact Or.inr (Or.inl h)
    · rw [if_neg hin] at hm4
      exact Or.inr (Or.inl hm4)
  · rw [if_neg hc]
    intro hm
    exact Or.inr (Or.inl hm)

theorem urlunparse_noqf (c : UrlParts) (hq : c.query = []) (hf : c.fragment = []) :
    urlunparse c =
      if c.scheme ≠ [] then
        c.scheme ++ ':' :: unsplitUrl1 c.scheme c.netloc (joinParams c.path c.params)
      else unsplitUrl1 c.scheme c.netloc (joinParams c.path c.params) := by
  have h1 : urlunparse c = urlunsplit c.scheme c.netloc (joinParams c.path c.params)
      c.query c.fragment := by
    simp only [urlunparse, joinParams]
  rw [h1, hq, hf, urlunsplit_noqf]

theorem schemeChar_mem_facts {s : Str} (hv : validSchemePre s = true) :
    ∀ ch ∈ s, isUnsafeChar ch = false ∧ isC0OrSpace ch = false ∧ ch ≠ ':' := by
  intro ch hm
  have hsc := (validSchemePre_facts hv).2 ch hm
  exact ⟨(isSchemeChar_facts hsc).2.1, (isSchemeChar_facts hsc).2.2.1,
    (isSchemeChar_facts hsc).1⟩

theorem urlunparse_safe (c : UrlParts) (h : WfParts c) (hq : c.query = [])
    (hf : c.fragment = []) : ∀ ch ∈ urlunparse c, isUnsafeChar ch = false := by
  intro ch hm
  rw [urlunparse_noqf c hq hf] at hm
  have hjp : ∀ d ∈ joinParams c.path c.params, isUnsafeChar d = false := by
    intro d hd
    rcases joinParams_mem hd with h1 | h1 | h1
    · exact h.path_safe d h1
    · rw [h1]
      decide
    · exact h.params_safe d h1
  have hsch : ∀ d ∈ c.scheme, isUnsafeChar d = false := by
    rcases h.scheme_valid with h0 | hv
    · rw [h0]
      intro d hd
      cases hd
    · exact fun d hd => (schemeChar_mem_facts hv d hd).1
  have hurl : ∀ d ∈ unsplitUrl1 c.scheme c.netloc (joinParams c.path c.params),
      isUnsafeChar d = false := by
    intro d hd
    rcases unsplitUrl1_mem d hd with h1 | h1 | h1
    · exact h.netloc_safe d h1
    · exact hjp d h1
    · rw [h1]
      decide
  by_cases hs : c.scheme ≠ []
  · rw [if_pos hs] at hm
    rcases List.mem_append.mp hm with h1 | h1
    · exact hsch ch h1
    · rcases List.mem_cons.mp h1 with h1 | h1
      · rw [h1]
        decide
      · exact hurl ch h1
  · rw [if_neg hs] at hm
    exact hurl ch hm

theorem urlunparse_clean (c : UrlParts) (h : WfParts c) (hq : c.query = [])
    (hf : c.fragment = []) :
    removeUnsafe (lstripControl (urlunparse c)) = urlunparse c := by
  have hhead : urlunparse c = [] ∨
      ∃ d t, urlunparse c = d :: t ∧ isC0OrSpace d = false := by
    rw [urlunparse_noqf c hq hf]
    by_cases hs : c.scheme ≠ []
    · rw [if_pos hs]
      cases hsc : c.scheme with
      | nil => exact absurd hsc hs
      | cons d t =>
        right
        refine ⟨d, _, by rw [List.cons_append], ?_⟩
        rcases h.scheme_valid with h0 | hv
        · rw [h0] at hsc
          cases hsc
        · rw [hsc] at hv
          have hda : d.isAlpha = true := by
            simp only [validSchemePre, Bool.and_eq_true] at hv
            exact hv.1
          exact alpha_not_c0 hda
    · rw [if_neg hs]
      have hs0 : c.scheme = [] := not_ne_iff.mp hs
      unfold unsplitUrl1
      by_cases hn0 : c.netloc = []
      · rw [if_neg (by simp [hn0, hs0])]
        cases hpth : c.path with
        | cons d t =>
          right
          refine ⟨d, joinParams t c.params, ?_, h.empty_head hs0 hn0 d t hpth⟩
          exact joinParams_cons d t c.params
        | nil =>
          cases hprm : c.params with
          | nil =>
            left
            rw [hpth] at *
            rw [joinParams, if_neg (by simp [hprm])]
          | cons d t =>
            right
            refine ⟨';', d :: t, ?_, by decide⟩
            rw [joinParams, if_pos (by simp)]
            rfl
      · rw [if_pos (Or.inl hn0)]
        exact Or.inr ⟨'/', _, rfl, by decide⟩
  have hsafe := urlunparse_safe c h hq hf
  rw [lstripControl_self hhead, removeUnsafe_all hsafe]

theorem splitparams_pp (c : UrlParts) (h : WfParts c)
    (hc : c.scheme ∈ usesParams ∧ ';' ∈ joinParams c.path c.params) :
    splitparams (joinParams c.path c.params) = (c.path, c.params) := by
  by_cases hp : c.params = []
  · have hpp : joinParams c.path c.params = c.path := by
      rw [joinParams, if_neg (by simp [hp])]
    rw [hpp] at hc ⊢
    rcases h.params_none hp with h1 | h1 | ⟨a, b, hab, hb⟩
    · exact absurd hc.1 h1
    · exact absurd hc.2 h1
    · rw [splitparams_slash_nosemi hab hb, hp]
  · have hpp : joinParams c.path c.params = c.path ++ ';' :: c.params := by
      rw [joinParams, if_pos (by simp [hp])]
    rw [hpp]
    exact splitparams_join h.params_slash (h.params_some hp)

theorem slash_struct {path : Str}
    (h0 : ('/' ∉ path ∧ ';' ∉ path) ∨
      (∃ a b, splitOnLast '/' path = some (a, b) ∧ ';' ∉ b)) :
    ∃ a b, splitOnLast '/' ('/' :: path) = some (a, b) ∧ ';' ∉ b := by
  rcases h0 with ⟨hsl, hsemi2⟩ | ⟨a, b, hab, hb⟩
  · refine ⟨[], path, ?_, hsemi2⟩
    have := splitOnLast_append '/' [] path hsl
    simpa using this
  · obtain ⟨hpeq, hnb⟩ := splitOnLast_eq_some '/' hab
    refine ⟨'/' :: a, b, ?_, hb⟩
    rw [hpeq]
    have hsh : ('/' :: (a ++ '/' :: b) : Str) = ('/' :: a) ++ '/' :: b := by
      rw [List.cons_append]
    rw [hsh]
    exact splitOnLast_append '/' ('/' :: a) b hnb

theorem splitparams_slash_pp (c : UrlParts) (h : WfParts c)
    (hc : c.scheme ∈ usesParams ∧ ';' ∈ '/' :: joinParams c.path c.params) :
    splitparams ('/' :: joinParams c.path c.params) = ('/' :: c.path, c.params) := by
  have hsemi : ';' ∈ joinParams c.path c.params := by
    rcases List.mem_cons.mp hc.2 with h1 | h1
    · exact absurd h1 (by decide)
    · exact h1
  by_cases hp : c.params = []
  · have hpp : joinParams c.path c.params = c.path := by
      rw [joinParams, if_neg (by simp [hp])]
    rw [hpp] at hsemi ⊢
    rcases h.params_none hp with h1 | h1 | ⟨a, b, hab, hb⟩
    · exact absurd hc.1 h1
    · exact absurd hsemi h1
    · obtain ⟨a2, b2, hab2, hb2⟩ := slash_struct (Or.inr ⟨a, b, hab, hb⟩)
      rw [splitparams_slash_nosemi hab2 hb2, hp]
  · have hpp : joinParams c.path c.params = c.path ++ ';' :: c.params := by
      rw [joinParams, if_pos (by simp [hp])]
    rw [hpp]
    have hshape : ('/' :: (c.path ++ ';' :: c.params) : Str) =
        ('/' :: c.path) ++ ';' :: c.params := by
      rw [List.cons_append]
    rw [hshape]
    exact splitparams_join h.params_slash (Or.inr (slash_struct (h.params_some hp)))

theorem urlparse_of_urlsplit_pp {v : Str} (c : UrlParts) (h : WfParts c)
    {n' q' f' : Str}
    (hv : urlsplit v = ⟨c.scheme, n', joinParams c.path c.params, [], q', f'⟩) :
    urlparse v = ⟨c.scheme, n', c.path, c.params, q', f'⟩ := by
  rw [urlparse_eq_of_urlsplit hv]
  by_cases hcnd : c.scheme ∈ usesParams ∧ ';' ∈ joinParams c.path c.params
  · rw [if_pos hcnd, splitparams_pp c h hcnd]
  · rw [if_neg hcnd]
    have hp : c.params = [] := by
      by_contra hp
      apply hcnd
      refine ⟨h.params_scheme hp, ?_⟩
      rw [joinParams, if_pos (by simp [hp])]
      exact List.mem_append_right _ (List.mem_cons_self _ _)
    have hpp : joinParams c.path c.params = c.path := by
      rw [joinParams, if_neg (by simp [hp])]
    rw [hpp, hp]

theorem urlparse_of_urlsplit_slash_pp {v : Str} (c : UrlParts) (h : WfParts c)
    {n' q' f' : Str}
    (hv : urlsplit v = ⟨c.scheme, n', '/' :: joinParams c.path c.params, [], q', f'⟩) :
    urlparse v = ⟨c.scheme, n', '/' :: c.path, c.params, q', f'⟩ := by
  rw [urlparse_eq_of_urlsplit hv]
  by_cases hcnd : c.scheme ∈ usesParams ∧ ';' ∈ '/' :: joinParams c.path c.params
  · rw [if_pos hcnd, splitparams_slash_pp c h hcnd]
  · rw [if_neg hcnd]
    have hp : c.params = [] := by
      by_contra hp
      apply hcnd
      refine ⟨h.params_scheme hp, ?_⟩
      apply List.mem_cons_of_mem
      rw [joinParams, if_pos (by simp [hp])]
      exact List.mem_append_right _ (List.mem_cons_self _ _)
    have hpp : joinParams c.path c.params = c.path := by
      rw [joinParams, if_neg (by simp [hp])]
    rw [hpp, hp]

theorem wfParts_clear {p : UrlParts} (h : WfParts p) :
    WfParts { p with query := [], fragment := [] } :=
  { scheme_valid := h.scheme_valid
    scheme_lower := h.scheme_lower
    netloc_delim := h.netloc_delim
    netloc_safe := h.netloc_safe
    path_hash := h.path_hash
    path_quest := h.path_quest
    path_safe := h.path_safe
    params_hash := h.params_hash
    params_quest := h.params_quest
    params_safe := h.params_safe
    params_slash := h.params_slash
    params_scheme := h.params_scheme
    params_none := h.params_none
    params_some := h.params_some
    netloc_path := h.netloc_path
    netloc_params := h.netloc_params
    empty_noscheme := h.empty_noscheme
    empty_head := h.empty_head }

theorem urlparse_netloc (v : Str) : (urlparse v).netloc = (urlsplit v).netloc := by
  simp only [urlparse]
  split
  · rfl
  · rfl

/-- Re-parsing an un-parsed, query- and fragment-free parse result: when the
path does not itself start with `//` (or a netloc is present), the parse
round-trips exactly, except in the no-netloc `uses_netloc` case with a
nonempty relative path, where the re-parse gains a leading slash that
un-parses to the same string. -/
theorem reparse_cases (s n path prm : Str)
    (h : WfParts ⟨s, n, path, prm, [], []⟩)
    (hH : n ≠ [] ∨ path.take 2 ≠ ['/', '/']) :
    urlparse (urlunparse ⟨s, n, path, prm, [], []⟩) = ⟨s, n, path, prm, [], []⟩ ∨
      (urlparse (urlunparse ⟨s, n, path, prm, [], []⟩)
          = ⟨s, n, '/' :: path, prm, [], []⟩ ∧
        urlunparse ⟨s, n, '/' :: path, prm, [], []⟩
          = urlunparse ⟨s, n, path, prm, [], []⟩) := by
  have hpp_hash : '#' ∉ joinParams path prm := by
    intro hm
    rcases joinParams_mem hm with h1 | h1 | h1
    · exact h.path_hash h1
    · exact absurd h1 (by decide)
    · exact h.params_hash h1
  have hpp_quest : '?' ∉ joinParams path prm := by
    intro hm
    rcases joinParams_mem hm with h1 | h1 | h1
    · exact h.path_quest h1
    · exact absurd h1 (by decide)
    · exact h.params_quest h1
  have hfr : splitOnFirst '#' (joinParams path prm)
      = (joinParams path prm, none) := splitOnFirst_not_mem _ _ hpp_hash
  have hqu : splitOnFirst '?' (joinParams path prm)
      = (joinParams path prm, none) := splitOnFirst_not_mem _ _ hpp_quest
  by_cases hn0 : n = []
  · subst hn0
    have hclean := urlunparse_clean ⟨s, [], path, prm, [], []⟩ h rfl rfl
    have hnoqf := urlunparse_noqf ⟨s, [], path, prm, [], []⟩ rfl rfl
    have hss : schemeSplit (urlunparse ⟨s, [], path, prm, [], []⟩)
        = (s, unsplitUrl1 s [] (joinParams path prm)) := by
      rw [hnoqf]
      by_cases hs : s ≠ []
      · rw [if_pos hs]
        rcases h.scheme_valid with h0 | hv
        · exact absurd h0 hs
        · exact schemeSplit_lowered _ hv h.scheme_lower
      · rw [if_neg hs]
        have hs0 : s = [] := not_ne_iff.mp hs
        subst hs0
        apply schemeSplit_none
        unfold unsplitUrl1
        rw [if_neg (by simp)]
        exact h.empty_noscheme rfl rfl
    have htk : path.take 2 ≠ ['/', '/'] := by
      rcases hH with h1 | h1
      · exact absurd rfl h1
      · exact h1
    have hpp2 : (joinParams path prm).take 2 ≠ ['/', '/'] :=
      fun htk2 => htk (joinParams_take_two htk2)
    by_cases hcond2 : s ≠ [] ∧ s ∈ usesNetloc
    · cases hppc : joinParams path prm with
      | nil =>
        left
        have hurl1 : unsplitUrl1 s [] (joinParams path prm) = ['/', '/'] := by
          unfold unsplitUrl1
          rw [if_pos (Or.inr ⟨hcond2.1, hcond2.2, hpp2⟩), hppc]
          rfl
        have hss' : schemeSplit
            (removeUnsafe (lstripControl (urlunparse ⟨s, [], path, prm, [], []⟩)))
            = (s, ['/', '/']) := by
          rw [hclean, hss, hurl1]
        have hnr : (if (['/', '/'] : Str).take 2 = ['/', '/']
            then splitnetloc ((['/', '/'] : Str).drop 2)
            else (([] : Str), (['/', '/'] : Str)))
            = (([] : Str), joinParams path prm) := by
          rw [if_pos (show (['/', '/'] : Str).take 2 = ['/', '/'] from rfl), hppc]
          rfl
        have hfr1 : splitOnFirst '#' (joinParams path prm)
            = (joinParams path prm, none) := hfr
        have hsplit := urlsplit_eq_explicit (urlunparse ⟨s, [], path, prm, [], []⟩)
          hss' hnr hfr1 hqu
        have hsplit' : urlsplit (urlunparse ⟨s, [], path, prm, [], []⟩)
            = ⟨s, [], joinParams path prm, [], [], []⟩ := by
          simpa using hsplit
        exact urlparse_of_urlsplit_pp ⟨s, [], path, prm, [], []⟩ h hsplit'
      | cons d t =>
        by_cases hd : d = '/'
        · subst hd
          left
          have hurl1 : unsplitUrl1 s [] (joinParams path prm)
              = '/' :: '/' :: joinParams path prm := by
            unfold unsplitUrl1
            rw [if_pos (Or.inr ⟨hcond2.1, hcond2.2, hpp2⟩),
              if_neg (by simp [hppc])]
            rfl
          have hss' : schemeSplit
              (removeUnsafe (lstripControl (urlunparse ⟨s, [], path, prm, [], []⟩)))
              = (s, '/' :: '/' :: joinParams path prm) := by
            rw [hclean, hss, hurl1]
          have hsn : splitnetloc (joinParams path prm)
              = ([], joinParams path prm) := by
            unfold splitnetloc
            rw [takeWhile_nil_of_head (Or.inr ⟨'/', t, hppc, by decide⟩),
              dropWhile_self_of_head (Or.inr ⟨'/', t, hppc, by decide⟩)]
          have hnr : (if ('/' :: '/' :: joinParams path prm : Str).take 2 = ['/', '/']
              then splitnetloc ((('/' :: '/' :: joinParams path prm : Str)).drop 2)
              else (([] : Str), ('/' :: '/' :: joinParams path prm : Str)))
              = (([] : Str), joinParams path prm) := by
            rw [if_pos
              (show ('/' :: '/' :: joinParams path prm : Str).take 2 = ['/', '/'] from rfl)]
            have hdrop : (('/' :: '/' :: joinParams path prm : Str)).drop 2
                = joinParams path prm := rfl
            rw [hdrop, hsn]
          have hsplit := urlsplit_eq_explicit (urlunparse ⟨s, [], path, prm, [], []⟩)
            hss' hnr hfr hqu
          have hsplit' : urlsplit (urlunparse ⟨s, [], path, prm, [], []⟩)
              = ⟨s, [], joinParams path prm, [], [], []⟩ := by
            simpa using hsplit
          exact urlparse_of_urlsplit_pp ⟨s, [], path, prm, [], []⟩ h hsplit'
        · right
          have htk1 : (joinParams path prm).take 1 ≠ ['/'] := by
            rw [hppc]
            intro hx
            injection hx with hx1 _
            exact hd hx1
          have hurl1 : unsplitUrl1 s [] (joinParams path prm)
              = '/' :: '/' :: '/' :: joinParams path prm := by
            unfold unsplitUrl1
            rw [if_pos (Or.inr ⟨hcond2.1, hcond2.2, hpp2⟩),
              if_pos ⟨by rw [hppc]; exact List.cons_ne_nil _ _, htk1⟩]
            rfl
          have hss' : schemeSplit
              (removeUnsafe (lstripControl (urlunparse ⟨s, [], path, prm, [], []⟩)))
              = (s, '/' :: '/' :: '/' :: joinParams path prm) := by
            rw [hclean, hss, hurl1]
          have hsn : splitnetloc ('/' :: joinParams path prm)
              = ([], '/' :: joinParams path prm) := by
            unfold splitnetloc
            rw [takeWhile_nil_of_head (Or.inr ⟨'/', _, rfl, by decide⟩),
              dropWhile_self_of_head (Or.inr ⟨'/', _, rfl, by decide⟩)]
          have hnr : (if ('/' :: '/' :: '/' :: joinParams path prm : Str).take 2
                = ['/', '/']
              then splitnetloc ((('/' :: '/' :: '/' :: joinParams path prm : Str)).drop 2)
              else (([] : Str), ('/' :: '/' :: '/' :: joinParams path prm : Str)))
              = (([] : Str), '/' :: joinParams path prm) := by
            rw [if_pos
              (show ('/' :: '/' :: '/' :: joinParams path prm : Str).take 2 = ['/', '/'] from rfl)]
            have hdrop : (('/' :: '/' :: '/' :: joinParams path prm : Str)).drop 2
                = '/' :: joinParams path prm := rfl
            rw [hdrop, hsn]
          have hfr2 : splitOnFirst '#' ('/' :: joinParams path prm)
              = ('/' :: joinParams path prm, none) := by
            apply splitOnFirst_not_mem
            intro hm
            rcases List.mem_cons.mp hm with h1 | h1
            · exact absurd h1 (by decide)
            · exact hpp_hash h1
          have hqu2 : splitOnFirst '?' ('/' :: joinParams path prm)
              = ('/' :: joinParams path prm, none) := by
            apply splitOnFirst_not_mem
            intro hm
            rcases List.mem_cons.mp hm with h1 | h1
            · exact absurd h1 (by decide)
            · exact hpp_quest h1
          have hsplit := urlsplit_eq_explicit (urlunparse ⟨s, [], path, prm, [], []⟩)
            hss' hnr hfr2 hqu2
          have hsplit' : urlsplit (urlunparse ⟨s, [], path, prm, [], []⟩)
              = ⟨s, [], '/' :: joinParams path prm, [], [], []⟩ := by
            simpa using hsplit
          constructor
          · exact urlparse_of_urlsplit_slash_pp ⟨s, [], path, prm, [], []⟩ h hsplit'
          · have hnoqf2 := urlunparse_noqf ⟨s, [], '/' :: path, prm, [], []⟩ rfl rfl
            rw [hnoqf, hnoqf2]
            rw [if_pos hcond2.1, if_pos hcond2.1]
            have hjc : joinParams ('/' :: path) prm = '/' :: joinParams path prm :=
              joinParams_cons '/' path prm
            have htk2' : ('/' :: joinParams path prm : Str).take 2 ≠ ['/', '/'] := by
              rw [hppc]
              intro hx
              injection hx with _ hx2
              injection hx2 with hx2 _
              exact hd hx2
            have hu1 : unsplitUrl1 s [] (joinParams ('/' :: path) prm)
                = '/' :: '/' :: '/' :: joinParams path prm := by
              unfold unsplitUrl1
              rw [hjc]
              rw [if_pos (Or.inr ⟨hcond2.1, hcond2.2, htk2'⟩),
                if_neg (by simp)]
              rfl
            rw [hu1, hurl1]
    · left
      have hurl1 : unsplitUrl1 s [] (joinParams path prm) = joinParams path prm := by
        unfold unsplitUrl1
        rw [if_neg]
        intro hx
        rcases hx with hx | hx
        · exact hx rfl
        · exact hcond2 ⟨hx.1, hx.2.1⟩
      have hss' : schemeSplit
          (removeUnsafe (lstripControl (urlunparse ⟨s, [], path, prm, [], []⟩)))
          = (s, joinParams path prm) := by
        rw [hclean, hss, hurl1]
      have hnr : (if (joinParams path prm).take 2 = ['/', '/']
          then splitnetloc ((joinParams path prm).drop 2)
          else (([] : Str), joinParams path prm))
          = (([] : Str), joinParams path prm) := by
        rw [if_neg hpp2]
      have hsplit := urlsplit_eq_explicit (urlunparse ⟨s, [], path, prm, [], []⟩)
        hss' hnr hfr hqu
      have hsplit' : urlsplit (urlunparse ⟨s, [], path, prm, [], []⟩)
          = ⟨s, [], joinParams path prm, [], [], []⟩ := by
        simpa using hsplit
      exact urlparse_of_urlsplit_pp ⟨s, [], path, prm, [], []⟩ h hsplit'
  · left
    have hclean := urlunparse_clean ⟨s, n, path, prm, [], []⟩ h rfl rfl
    have hnoqf := urlunparse_noqf ⟨s, n, path, prm, [], []⟩ rfl rfl
    have hss : schemeSplit (urlunparse ⟨s, n, path, prm, [], []⟩)
        = (s, unsplitUrl1 s n (joinParams path prm)) := by
      rw [hnoqf]
      by_cases hs : s ≠ []
      · rw [if_pos hs]
        rcases h.scheme_valid with h0 | hv
        · exact absurd h0 hs
        · exact schemeSplit_lowered _ hv h.scheme_lower
      · rw [if_neg hs]
        have hs0 : s = [] := not_ne_iff.mp hs
        subst hs0
        apply schemeSplit_none
        unfold unsplitUrl1
        rw [if_pos (Or.inl hn0)]
        exact noSchemeLike_head _ (by decide)
    have hppshape : joinParams path prm = [] ∨
        ∃ t, joinParams path prm = '/' :: t := by
      rcases h.netloc_path hn0 with hp0 | hp1
      · by_cases hprm : prm = []
        · left
          rw [joinParams, if_neg (by simp [hprm])]
          exact hp0
        · have hx := h.netloc_params hn0 hprm
          rw [hp0] at hx
          cases hx
      · have hp1' : path.take 1 = ['/'] := hp1
        cases path with
        | nil => cases hp1'
        | cons d t =>
          have hd : d = '/' :=
            (List.cons.inj (show ([d] : Str) = ['/'] from hp1')).1
          subst hd
          right
          rw [joinParams_cons]
          exact ⟨_, rfl⟩
    have hinner : (if joinParams path prm ≠ [] ∧ (joinParams path prm).take 1 ≠ ['/']
        then '/' :: joinParams path prm else joinParams path prm)
        = joinParams path prm := by
      rcases hppshape with h1 | ⟨t, h1⟩
      · rw [if_neg (by simp [h1])]
      · rw [if_neg (by simp [h1])]
    have hurl1 : unsplitUrl1 s n (joinParams path prm)
        = '/' :: '/' :: (n ++ joinParams path prm) := by
      unfold unsplitUrl1
      rw [if_pos (Or.inl hn0), hinner]
    have hss' : schemeSplit
        (removeUnsafe (lstripControl (urlunparse ⟨s, n, path, prm, [], []⟩)))
        = (s, '/' :: '/' :: (n ++ joinParams path prm)) := by
      rw [hclean, hss, hurl1]
    have hnr2 : splitnetloc (n ++ joinParams path prm)
        = (n, joinParams path prm) := by
      apply splitnetloc_append _ _ h.netloc_delim
      rcases hppshape with h1 | ⟨t, h1⟩
      · exact Or.inl h1
      · exact Or.inr ⟨'/', t, h1, by decide⟩
    have hnr : (if ('/' :: '/' :: (n ++ joinParams path prm) : Str).take 2 = ['/', '/']
        then splitnetloc ((('/' :: '/' :: (n ++ joinParams path prm) : Str)).drop 2)
        else (([] : Str), ('/' :: '/' :: (n ++ joinParams path prm) : Str)))
        = (n, joinParams path prm) := by
      rw [if_pos
        (show ('/' :: '/' :: (n ++ joinParams path prm) : Str).take 2 = ['/', '/'] from rfl)]
      have hdrop : (('/' :: '/' :: (n ++ joinParams path prm) : Str)).drop 2
          = n ++ joinParams path prm := rfl
      rw [hdrop, hnr2]
    have hsplit := urlsplit_eq_explicit (urlunparse ⟨s, n, path, prm, [], []⟩)
      hss' hnr hfr hqu
    have hsplit' : urlsplit (urlunparse ⟨s, n, path, prm, [], []⟩)
        = ⟨s, n, joinParams path prm, [], [], []⟩ := by
      simpa using hsplit
    exact urlparse_of_urlsplit_pp ⟨s, n, path, prm, [], []⟩ h hsplit'

/-- `_normalize_link` output is a fixed point of `_normalize_link` whenever
the parse of the un-parsed cleared parts is benign (netloc present, or path
not starting with `//`). -/
theorem normalizeLink_stable (s n path prm : Str)
    (h : WfParts ⟨s, n, path, prm, [], []⟩)
    (hH : n ≠ [] ∨ path.take 2 ≠ ['/', '/']) :
    normalizeLink (urlunparse ⟨s, n, path, prm, [], []⟩)
      = urlunparse ⟨s, n, path, prm, [], []⟩ := by
  rcases reparse_cases s n path prm h hH with h1 | ⟨h1, h2⟩
  · simp only [normalizeLink]
    rw [h1]
  · simp only [normalizeLink]
    rw [h1]
    exact h2

/-- C9 (amended): two URLs whose parses differ only in query and fragment
normalize to the same canonical string, and `LinkCollector._normalize_link`
is idempotent on every URL whose parse has a nonempty netloc or whose parsed
path does not start with `//`; on other URLs (e.g. `http://////x`) a second
normalization can shorten the URL further under Python ≥ 3.11 `urlunsplit`. -/
theorem c9_normalization (u1 u2 u : Str)
    (hsame : (urlparse u1).scheme = (urlparse u2).scheme ∧
      (urlparse u1).netloc = (urlparse u2).netloc ∧
      (urlparse u1).path = (urlparse u2).path ∧
      (urlparse u1).params = (urlparse u2).params)
    (hH : (urlparse u).netloc ≠ [] ∨ (urlparse u).path.take 2 ≠ ['/', '/']) :
    normalizeLink u1 = normalizeLink u2 ∧
      normalizeLink (normalizeLink u) = normalizeLink u := by
  obtain ⟨h1, h2, h3, h4⟩ := hsame
  constructor
  · show urlunparse ⟨(urlparse u1).scheme, (urlparse u1).netloc, (urlparse u1).path,
        (urlparse u1).params, [], []⟩
      = urlunparse ⟨(urlparse u2).scheme, (urlparse u2).netloc, (urlparse u2).path,
        (urlparse u2).params, [], []⟩
    rw [h1, h2, h3, h4]
  · have hwf' : WfParts ⟨(urlparse u).scheme, (urlparse u).netloc, (urlparse u).path,
        (urlparse u).params, [], []⟩ := wfParts_clear (wfParts_urlparse u)
    have hn : normalizeLink u = urlunparse ⟨(urlparse u).scheme, (urlparse u).netloc,
        (urlparse u).path, (urlparse u).params, [], []⟩ := rfl
    rw [hn]
    exact normalizeLink_stable _ _ _ _ hwf' hH

set_option maxRecDepth 8000 in
theorem c9_normalization_witness :
    ((urlparse "http://x.com/a?q=1#frag".data).scheme
        = (urlparse "http://x.com/a".data).scheme ∧
      (urlparse "http://x.com/a?q=1#frag".data).netloc
        = (urlparse "http://x.com/a".data).netloc ∧
      (urlparse "http://x.com/a?q=1#frag".data).path
        = (urlparse "http://x.com/a".data).path ∧
      (urlparse "http://x.com/a?q=1#frag".data).params
        = (urlparse "http://x.com/a".data).params) ∧
    ((urlparse "http://x.com/a".data).netloc ≠ [] ∨
      (urlparse "http://x.com/a".data).path.take 2 ≠ ['/', '/']) ∧
    (normalizeLink "http://x.com/a?q=1#frag".data = normalizeLink "http://x.com/a".data ∧
      normalizeLink (normalizeLink "http://x.com/a".data)
        = normalizeLink "http://x.com/a".data) :=
  ⟨by decide, by decide, c9_normalization _ _ _ (by decide) (by decide)⟩

set_option maxRecDepth 8000 in
/-- C9 counterexample: under the Python 3.11 `urlunsplit` re-joining rule,
normalizing `http://////x` gives `http:////x`, and normalizing that again
gives `http://x`, so `_normalize_link` is not idempotent. -/
theorem c9_counterexample :
    normalizeLink (normalizeLink "http://////x".data)
      ≠ normalizeLink "http://////x".data := by
  decide

/-- C6 (amended): for an absolute base URL `scheme://host...` with a clean
host, `RobotsTxtChecker._create_robots_url` of scraper/robots.py returns
`http://host/robots.txt`: the host is kept but the scheme is hardcoded to
`http`, so an `https` base is probed over plain `http`. -/
theorem c6_robots_url (scheme host rest : Str)
    (hv : validSchemePre scheme = true)
    (hhost : ∀ c ∈ host, isNetlocDelim c = false ∧ isUnsafeChar c = false)
    (hrest : rest = [] ∨ ∃ c t, rest = c :: t ∧ isNetlocDelim c = true)
    (hrest_safe : ∀ c ∈ rest, isUnsafeChar c = false) :
    createRobotsUrl (scheme ++ ':' :: '/' :: '/' :: (host ++ rest))
      = "http://".data ++ host ++ "/robots.txt".data := by
  unfold createRobotsUrl
  have hnet : (urlparse (scheme ++ ':' :: '/' :: '/' :: (host ++ rest))).netloc
      = host := by
    rw [urlparse_netloc]
    obtain ⟨⟨u5, fo⟩, hf⟩ : ∃ p, splitOnFirst '#' rest = p := ⟨_, rfl⟩
    obtain ⟨⟨p0, qo⟩, hq⟩ : ∃ p, splitOnFirst '?' u5 = p := ⟨_, rfl⟩
    have hclean : removeUnsafe (lstripControl
        (scheme ++ ':' :: '/' :: '/' :: (host ++ rest)))
        = scheme ++ ':' :: '/' :: '/' :: (host ++ rest) := by
      have hsafe : ∀ c ∈ scheme ++ ':' :: '/' :: '/' :: (host ++ rest),
          isUnsafeChar c = false := by
        intro c hm
        rcases List.mem_append.mp hm with h1 | h1
        · exact (schemeChar_mem_facts hv c h1).1
        · rcases List.mem_cons.mp h1 with rfl | h1
          · decide
          rcases List.mem_cons.mp h1 with rfl | h1
          · decide
          rcases List.mem_cons.mp h1 with rfl | h1
          · decide
          rcases List.mem_append.mp h1 with h1 | h1
          · exact (hhost c h1).2
          · exact hrest_safe c h1
      have hhead : scheme ++ ':' :: '/' :: '/' :: (host ++ rest) = [] ∨
          ∃ d t, scheme ++ ':' :: '/' :: '/' :: (host ++ rest) = d :: t ∧
            isC0OrSpace d = false := by
        cases hsc : scheme with
        | nil =>
          rw [hsc] at hv
          exact absurd hv (by decide)
        | cons d t =>
          right
          refine ⟨d, _, by rw [List.cons_append], ?_⟩
          have hda : d.isAlpha = true := by
            rw [hsc] at hv
            simp only [validSchemePre, Bool.and_eq_true] at hv
            exact hv.1
          exact alpha_not_c0 hda
      rw [lstripControl_self hhead, removeUnsafe_all hsafe]
    have hss : schemeSplit (removeUnsafe (lstripControl
        (scheme ++ ':' :: '/' :: '/' :: (host ++ rest))))
        = (scheme.map Char.toLower, '/' :: '/' :: (host ++ rest)) := by
      rw [hclean]
      exact schemeSplit_valid_append _ hv
    have hsn : splitnetloc (host ++ rest) = (host, rest) :=
      splitnetloc_append host rest (fun c hc => (hhost c hc).1) hrest
    have hnr : (if ('/' :: '/' :: (host ++ rest) : Str).take 2 = ['/', '/']
        then splitnetloc ((('/' :: '/' :: (host ++ rest) : Str)).drop 2)
        else (([] : Str), ('/' :: '/' :: (host ++ rest) : Str))) = (host, rest) := by
      rw [if_pos
        (show ('/' :: '/' :: (host ++ rest) : Str).take 2 = ['/', '/'] from rfl)]
      have hdrop : (('/' :: '/' :: (host ++ rest) : Str)).drop 2 = host ++ rest := rfl
      rw [hdrop, hsn]
    have hsplit := urlsplit_eq_explicit (scheme ++ ':' :: '/' :: '/' :: (host ++ rest))
      hss hnr hf hq
    rw [hsplit]
  rw [hnet]

theorem c6_robots_url_witness :
    validSchemePre "https".data = true ∧
    (∀ c ∈ "example.com".data, isNetlocDelim c = false ∧ isUnsafeChar c = false) ∧
    ("/docs".data = [] ∨ ∃ c t, "/docs".data = c :: t ∧ isNetlocDelim c = true) ∧
    (∀ c ∈ "/docs".data, isUnsafeChar c = false) ∧
    createRobotsUrl ("https".data ++ ':' :: '/' :: '/' ::
        ("example.com".data ++ "/docs".data))
      = "http://".data ++ "example.com".data ++ "/robots.txt".data :=
  ⟨by decide, by decide, Or.inr ⟨'/', "docs".data, by decide, by decide⟩, by decide,
    c6_robots_url "https".data "example.com".data "/docs".data (by decide) (by decide)
      (Or.inr ⟨'/', "docs".data, by decide, by decide⟩) (by decide)⟩

set_option maxRecDepth 8000 in
/-- C6 counterexample: for the https base URL `https://example.com/docs` the
robots URL built by scraper/robots.py is `http://example.com/robots.txt`
(scheme forced to http), not `https://example.com/robots.txt` as the
scheme-preserving formula of the spec states; the variant checker in
scraper/scraping/robots.py instead keeps the scheme and the path. -/
theorem c6_counterexample :
    createRobotsUrl "https://example.com/docs".data
        = "http://example.com/robots.txt".data ∧
      createRobotsUrl "https://example.com/docs".data
        ≠ "https://example.com/robots.txt".data ∧
      scrapingRobotsUrl "https://example.com/docs".data
        = "https://example.com/docs/robots.txt".data := by
  refine ⟨by decide, by decide, by decide⟩
end Scraper
